import Mathlib

/-!
Verification development for the pyriksdagen Protocol Annotation Pipeline
(`pyriksdagen/refine.py` together with the traversal helper `elem_iter` of
`pyriksdagen/utils.py`).

The embedding models:
  * a TEI protocol as a tree `Doc` of divisions (`Div`) holding content
    nodes (`Node`: utterances `Utt` with child segments `Seg`, notes
    `NoteN`, page breaks `PB`), mirroring exactly the shapes traversed by
    `elem_iter` (top-level `u` / `note` / `pb` children of each `div` of
    the body);
  * Python strings as `List Char` (`Str`), with the handful of `str`
    methods the source uses (`in`, `.index`, `.lower`, `.strip`,
    `.split`, slicing) defined below with Python semantics, including the
    exceptions `str.index` and `s[-1]` can raise;
  * fallible Python code in `Except PyErr`; an uncaught Python exception
    is `Except.error`;
  * the functions imported from the `pyriksdagen.segmentation`,
    `pyriksdagen.db` and `pyriksdagen.match_mp` modules (which are not
    part of the sources being verified) as parameters (`Ctx`) or, where a
    claim needs their behaviour, as definitions modelled from the spec
    and marked as such.
-/

/-- Python exception values that the embedded code can raise. -/
inductive PyErr where
  | attributeError (msg : String)
  | nameError (msg : String)
  | valueError (msg : String)
  | keyError (msg : String)
  | indexError (msg : String)
  deriving DecidableEq, Repr

/-- Python strings are modelled as lists of characters. -/
abbrev Str := List Char

/-- Turn a Lean string literal into the `Str` model. -/
def sl (s : String) : Str := s.toList

/-- `startsW s p` : the string `s` begins with `p` (Python `s.startswith(p)`). -/
def startsW : Str → Str → Bool
  | _, [] => true
  | [], _ :: _ => false
  | c :: s, d :: p => c = d && startsW s p

/-- Python `sub in s` for strings: `sub` occurs contiguously in `s`. -/
def isSubstr (sub : Str) : Str → Bool
  | [] => sub.isEmpty
  | c :: rest => startsW (c :: rest) sub || isSubstr sub rest

/-- First index at which `sub` occurs in `s`, if any (Python `s.find(sub)`). -/
def indexOf? (s sub : Str) : Option Nat :=
  match s with
  | [] => if sub.isEmpty then some 0 else none
  | c :: rest =>
    if startsW (c :: rest) sub then some 0
    else (indexOf? rest sub).map (· + 1)

/-- Python `s.index(sub)`: like `indexOf?` but raising `ValueError` when absent. -/
def pyIndexE (s sub : Str) : Except PyErr Nat :=
  match indexOf? s sub with
  | some i => Except.ok i
  | none => Except.error (PyErr.valueError "substring not found")

/-- Python `s[-1]`: the last character, raising `IndexError` on the empty string. -/
def lastCharE (s : Str) : Except PyErr Char :=
  match s.getLast? with
  | some c => Except.ok c
  | none => Except.error (PyErr.indexError "string index out of range")

/-- Lower-casing of one character, covering ASCII plus the Swedish letters that
occur in the source's role keywords (model of Python `str.lower`). -/
def lowCh (c : Char) : Char :=
  if c = 'Å' then 'å' else if c = 'Ä' then 'ä' else if c = 'Ö' then 'ö'
  else c.toLower

/-- Python `s.lower()`. -/
def lowerS (s : Str) : Str := s.map lowCh

/-- Whitespace characters recognised by Python `str.split()` / `str.strip()`. -/
def isWs (c : Char) : Bool :=
  c = ' ' || c = '\t' || c = '\n' || c = '\r'

/-- Python `s.strip()`. -/
def stripS (s : Str) : Str :=
  ((s.dropWhile isWs).reverse.dropWhile isWs).reverse

/-- Helper for `splitWs`: accumulates the current word reversed. -/
def splitWsAux : Str → Str → List Str
  | [], cur => if cur.isEmpty then [] else [cur.reverse]
  | c :: rest, cur =>
    if isWs c then
      if cur.isEmpty then splitWsAux rest []
      else cur.reverse :: splitWsAux rest []
    else splitWsAux rest (c :: cur)

/-- Python `s.split()` (split on whitespace runs, no empty items). -/
def splitWs (s : Str) : List Str := splitWsAux s []

/-- Python `" ".join(l)`. -/
def joinSp : List Str → Str
  | [] => []
  | [x] => x
  | x :: y :: rest => x ++ ' ' :: joinSp (y :: rest)

/-- Length of `" ".join(s.split())`, the normalised length used by `detect_date`. -/
def normLen (s : Str) : Nat := (joinSp (splitWs s)).length

/-! ## The document model -/

/-- A text segment (`<seg>`), child of an utterance. -/
structure Seg where
  id : Option Str
  text : Option Str
  deriving DecidableEq, Repr

/-- An utterance node (`<u>`). -/
structure Utt where
  id : Option Str
  who : Option Str
  prev : Option Str
  next : Option Str
  segs : List Seg
  deriving DecidableEq, Repr

/-- A note node (`<note>`); `type` is its `type` attribute. -/
structure NoteN where
  id : Option Str
  type : Option Str
  text : Option Str
  deriving DecidableEq, Repr

/-- A page-break node (`<pb>`); `facs` is its page-image URL attribute. -/
structure PB where
  id : Option Str
  facs : Option Str
  deriving DecidableEq, Repr

/-- A content node, one of the three shapes yielded by `elem_iter`. -/
inductive Node where
  | u (un : Utt)
  | note (nn : NoteN)
  | pb (pp : PB)
  deriving DecidableEq, Repr

/-- A `<div>` of the body: its `type` attribute, its text head and its
content nodes in document order. -/
structure BodyDiv where
  typ : Option Str
  text : Option Str
  nodes : List Node
  deriving DecidableEq, Repr

/-- A `<div>` of the front matter, holding `docDate` declarations. -/
structure FrontDiv where
  typ : Option Str
  docDates : List Str
  deriving DecidableEq, Repr

/-- A protocol document: front-matter divisions, body divisions, root text. -/
structure Doc where
  front : List FrontDiv
  divs : List BodyDiv
  rootText : Option Str
  deriving DecidableEq, Repr

/-- A body node together with the index and `type` attribute of the `div`
containing it; `elem_iter root` enumerates exactly these, in order. -/
structure BNode where
  divIx : Nat
  divType : Option Str
  node : Node
  deriving DecidableEq, Repr

/-- The sequence of `(div, node)` pairs produced by `elem_iter` over the body. -/
def flattenDoc (doc : Doc) : List BNode :=
  (doc.divs.enum.map fun p =>
    p.2.nodes.map fun n => BNode.mk p.1 p.2.typ n).flatten

def strSpeaker : Str := sl "speaker"
def strUnknown : Str := sl "unknown"
def strDelete : Str := sl "delete"
def strCommentSection : Str := sl "commentSection"
def strStatsrad : Str := sl "statsråd"
def strMinister : Str := sl "minister"
def strTalman : Str := sl "talman"
def strForsta : Str := sl "Första kammaren"
def strAndra : Str := sl "Andra kammaren"
def strColon : Str := sl ":"
def strBetalab : Str := sl "https://betalab.kb.se/"
def strSwerik : Str := sl "https://swerik-project.github.io/"

/-! ## Speaker attribution (`detect_mps`, refine.py lines 96-219) -/

/-- A member-of-parliament registry row; `detect_mps` only inspects the
`chamber` column, the rest of the row is opaque payload for `detect_mp`. -/
structure MPRow where
  chamber : Nat
  payload : Str
  deriving DecidableEq, Repr

/-- A minister registry row (opaque payload, consumed by `detect_minister`). -/
structure MinisterRow where
  payload : Str
  deriving DecidableEq, Repr

/-- A presiding-officer registry row; `detect_mps` filters on `chamber`. -/
structure SpeakerRow where
  chamber : Nat
  payload : Str
  deriving DecidableEq, Repr

/-- The party-abbreviation map (opaque, passed through to `detect_mp`). -/
abbrev PartyMap := List (Str × Str)

/-- Protocol metadata as produced by `infer_metadata`. -/
structure Metadata where
  year : Nat
  secondaryYear : Option Nat
  chamber : Option Str
  deriving DecidableEq, Repr

/-- The structured guess parsed from an announcement by `intro_to_dict`
(a Python dict with optional keys `name`, `other`, `gender`, `party`). -/
structure IntroDict where
  name : Option Str
  other : Option Str
  gender : Option Str
  party : Option Str
  deriving DecidableEq, Repr

/-- Python `d.get(key)` on the parsed-introduction dict. -/
def IntroDict.get (d : IntroDict) (k : Str) : Option Str :=
  if k = sl "name" then d.name
  else if k = sl "other" then d.other
  else if k = sl "gender" then d.gender
  else if k = sl "party" then d.party
  else none

/-- The functions `detect_mps` imports from `pyriksdagen.segmentation` and
`pyriksdagen.match_mp` (modules outside the verified sources).  They are
taken as parameters: every theorem below holds for an arbitrary
interpretation, except where a concrete one is supplied.  The resolution
strategies may raise (`Except`), matching the error-handling claims.
`intro_to_dict`'s expression-table argument (`load_expressions("mp")`,
from the missing `db` module) is folded into the function itself. -/
structure Ctx where
  intro_to_dict : Str → IntroDict
  multiple_replace : Str → Str
  detect_minister : Str → List MinisterRow → IntroDict → Except PyErr (Option Str)
  detect_speaker : Str → List SpeakerRow → Metadata → Except PyErr (Option Str)
  detect_mp : IntroDict → List MPRow → PartyMap → Bool → Except PyErr (Option Str)

/-- The per-document configuration `detect_mps` sets up before its scan:
the chamber-filtered registries and the flags threaded to the resolvers. -/
structure DCfg where
  ctx : Ctx
  minister_db : List MinisterRow
  speaker_db : List SpeakerRow
  mp_db : List MPRow
  mp_db_secondary : List MPRow
  party_map : PartyMap
  metadata : Metadata
  scanned : Bool
  protocol_id : Option Str
  unknown_variables : List Str

/-- refine.py lines 114-120: probe the first `pb`'s `facs` URL to decide
whether the protocol is a noisy digitization.  The bare `except` makes both
an absent `pb` (IndexError) and a missing `facs` (AttributeError on
`None.startswith`) fall back to `False`. -/
def scannedProtocol (doc : Doc) : Bool :=
  match (flattenDoc doc).filterMap
      (fun b => match b.node with | Node.pb p => some p | _ => none) |>.head? with
  | none => false
  | some p =>
    match p.facs with
    | none => false
    | some url => startsW url strBetalab || startsW url strSwerik

/-- refine.py lines 173-175: parse the announcement text and normalise the
name through `multiple_replace` when one was found. -/
def parsedDict (cfg : DCfg) (t : Str) : IntroDict :=
  let d0 := cfg.ctx.intro_to_dict t
  match d0.name with
  | some nm => { d0 with name := some (cfg.ctx.multiple_replace nm) }
  | none => d0

/-- refine.py lines 177-197: the resolution cascade for one announcement.
With `other` present it branches on the role keywords; only with no
`other` key at all does a parsed name reach the member registry, tried
first on the document-chamber slice and, if that yields nothing and the
complementary slice is non-empty, on the complementary slice. -/
def resolveIntro (cfg : DCfg) (t : Str) : Except PyErr (Option Str) :=
  let d := parsedDict cfg t
  match d.other with
  | some o =>
    if isSubstr strStatsrad (lowerS o) || isSubstr strMinister (lowerS o) then
      cfg.ctx.detect_minister t cfg.minister_db d
    else if isSubstr strTalman (lowerS o) then
      cfg.ctx.detect_speaker t cfg.speaker_db cfg.metadata
    else Except.ok none
  | none =>
    match d.name with
    | some _ =>
      match cfg.ctx.detect_mp d cfg.mp_db cfg.party_map cfg.scanned with
      | Except.ok none =>
        if cfg.mp_db_secondary.length > 0 then
          cfg.ctx.detect_mp d cfg.mp_db_secondary cfg.party_map cfg.scanned
        else Except.ok none
      | Except.ok (some x) => Except.ok (some x)
      | Except.error e => Except.error e
    | none => Except.ok none

/-- The unknown-speaker observation appended at refine.py line 200:
`[protocol_id, elem.attrib.get(xml_ns+"id")] + [d.get(key, "") for key in
unknown_variables]`. -/
def unknownEntry (cfg : DCfg) (nid : Option Str) (d : IntroDict) :
    List (Option Str) :=
  cfg.protocol_id :: nid ::
    cfg.unknown_variables.map (fun k => some ((d.get k).getD []))

/-- State threaded through the scan of `detect_mps`: the current speaker,
the position (in the processed prefix) of the utterance awaiting a `next`
pointer, the processed nodes, and the unknown-speaker observations. -/
structure MSt where
  cs : Option Str
  prevu : Option Nat
  acc : List BNode
  unknowns : List (List (Option Str))

/-- Read `elem.attrib["{xml-ns}id"]` of the stored previous utterance;
`KeyError` when the attribute is absent. -/
def idAt (acc : List BNode) (p : Nat) : Except PyErr Str :=
  match acc[p]? with
  | some b =>
    match b.node with
    | Node.u un =>
      match un.id with
      | some i => Except.ok i
      | none => Except.error (PyErr.keyError "xml id")
    | _ => Except.error (PyErr.keyError "xml id")
  | none => Except.error (PyErr.keyError "xml id")

/-- `prev.set("next", elem_id)` (refine.py line 158): patch the `next`
attribute of the utterance stored at position `p`. -/
def patchNext (acc : List BNode) (p : Nat) (eid : Str) : List BNode :=
  match acc[p]? with
  | some b =>
    match b.node with
    | Node.u un => acc.set p ⟨b.divIx, b.divType, Node.u { un with next := some eid }⟩
    | _ => acc
  | none => acc

/-- One step of the `detect_mps` scan (refine.py lines 141-209), processing
one `(tag, elem)` pair from `elem_iter`.  In an ordinary division an
utterance gets sentinel `prev`/`next` attributes, its `who`, and is chained
to the pending previous utterance; a `note` of type `speaker` resets the
chain and runs the resolution cascade — its text is interpolated into a
debug-log f-string (line 171: `' '.join(text.split())`) *before* the
`type(text) == str` guard, so a `None` text raises `AttributeError`.  In a
comment section every utterance is stamped `unknown` with sentinel
pointers, and both state variables reset on every node. -/
def stepNode (cfg : DCfg) (st : MSt) (b : BNode) : Except PyErr MSt :=
  if b.divType = some strCommentSection then
    let n' := match b.node with
      | Node.u un =>
        Node.u { un with prev := some strDelete, next := some strDelete,
                         who := some strUnknown }
      | m => m
    Except.ok ⟨none, none, st.acc ++ [⟨b.divIx, b.divType, n'⟩], st.unknowns⟩
  else
    match b.node with
    | Node.u un =>
      let un1 := { un with prev := some strDelete, next := some strDelete,
                           who := some (st.cs.getD strUnknown) }
      match st.prevu with
      | none =>
        Except.ok ⟨st.cs, some st.acc.length,
          st.acc ++ [⟨b.divIx, b.divType, Node.u un1⟩], st.unknowns⟩
      | some p =>
        match idAt st.acc p with
        | Except.error e => Except.error e
        | Except.ok pid =>
          match un1.id with
          | none => Except.error (PyErr.keyError "xml id")
          | some eid =>
            let un2 := { un1 with prev := some pid }
            let acc2 := patchNext st.acc p eid
            Except.ok ⟨st.cs, some acc2.length,
              acc2 ++ [⟨b.divIx, b.divType, Node.u un2⟩], st.unknowns⟩
    | Node.note nn =>
      if nn.type = some strSpeaker then
        match nn.text with
        | none =>
          Except.error (PyErr.attributeError "NoneType object has no attribute split")
        | some t =>
          let d := parsedDict cfg t
          match resolveIntro cfg t with
          | Except.error e => Except.error e
          | Except.ok cs =>
            let unks :=
              if cs = none then st.unknowns ++ [unknownEntry cfg nn.id d]
              else st.unknowns
            Except.ok ⟨cs, none, st.acc ++ [⟨b.divIx, b.divType, Node.note nn⟩], unks⟩
      else
        Except.ok ⟨st.cs, st.prevu, st.acc ++ [⟨b.divIx, b.divType, Node.note nn⟩],
          st.unknowns⟩
    | Node.pb pp =>
      Except.ok ⟨st.cs, st.prevu, st.acc ++ [⟨b.divIx, b.divType, Node.pb pp⟩],
        st.unknowns⟩

/-- The main loop of `detect_mps` over the `elem_iter` sequence. -/
def runNodes (cfg : DCfg) : List BNode → MSt → Except PyErr MSt
  | [], st => Except.ok st
  | b :: rest, st =>
    match stepNode cfg st b with
    | Except.ok st' => runNodes cfg rest st'
    | Except.error e => Except.error e

/-- The finishing pass (refine.py lines 212-217): on every utterance,
delete the `prev`/`next` attributes still equal to the sentinel. -/
def stripDelete : Option Str → Option Str
  | some s => if s = strDelete then none else some s
  | none => none

/-- Apply the sentinel-deletion pass to one processed node. -/
def stripU (b : BNode) : BNode :=
  match b.node with
  | Node.u un =>
    ⟨b.divIx, b.divType, Node.u { un with prev := stripDelete un.prev,
                                          next := stripDelete un.next }⟩
  | _ => b

/-- The chamber number for refine.py line 136:
`{'Första kammaren': 1, 'Andra kammaren': 2}.get(metadata['chamber'], 0)`. -/
def chamberNum (ch : Str) : Nat :=
  if ch = strForsta then 1 else if ch = strAndra then 2 else 0

/-- refine.py lines 128-139: the chamber partitioning of the registries.
With a `chamber` in the metadata the member registry is split into the
document-chamber slice and its complement and the presiding-officer
registry is restricted to the document's chamber; otherwise the member
registry is used whole and the complement starts out as the empty frame. -/
def chamberSplit (metadata : Metadata) (mp_db : List MPRow)
    (speaker_db : List SpeakerRow) :
    List MPRow × List MPRow × List SpeakerRow :=
  match metadata.chamber with
  | some ch =>
    let c := chamberNum ch
    (mp_db.filter (fun r => r.chamber = c),
     mp_db.filter (fun r => ¬ r.chamber = c),
     speaker_db.filter (fun r => r.chamber = c))
  | none => (mp_db, [], speaker_db)

/-- Build the scan configuration of `detect_mps` (lines 114-139). -/
def detectCfg (ctx : Ctx) (doc : Doc) (mp_db : List MPRow)
    (minister_db : List MinisterRow) (speaker_db : List SpeakerRow)
    (metadata : Metadata) (party_map : PartyMap) (protocol_id : Option Str)
    (unknown_variables : List Str) : DCfg :=
  let parts := chamberSplit metadata mp_db speaker_db
  ⟨ctx, minister_db, parts.2.2, parts.1, parts.2.1, party_map, metadata,
    scannedProtocol doc, protocol_id, unknown_variables⟩

/-- `detect_mps` (refine.py lines 96-219).  The mutated tree is returned as
the processed `elem_iter` sequence (each node with its division index and
division type) together with the unknown-speaker observations.  The
`names_ids`, `pattern_db` and `minister_db_secondary` parameters of the
source are unused by its body and omitted here. -/
def detect_mps (ctx : Ctx) (doc : Doc) (mp_db : List MPRow)
    (minister_db : List MinisterRow) (speaker_db : List SpeakerRow)
    (metadata : Metadata) (party_map : PartyMap) (protocol_id : Option Str)
    (unknown_variables : List Str) :
    Except PyErr (List BNode × List (List (Option Str))) :=
  match runNodes
      (detectCfg ctx doc mp_db minister_db speaker_db metadata party_map
        protocol_id unknown_variables)
      (flattenDoc doc) ⟨none, none, [], []⟩ with
  | Except.ok st => Except.ok (st.acc.map stripU, st.unknowns)
  | Except.error e => Except.error e

/-! ## Introduction segmentation (`find_introductions`, refine.py lines 222-338) -/

/-- What `detect_introduction` reports for a matched node: the matched
template text and the optional speaker identity. -/
structure Intro where
  txt : Str
  who : Option Str
  deriving DecidableEq, Repr

/-- The confirmed-intro table (`intro_ids`): node identifier to match data. -/
abbrev IntroTable := List (Str × Intro)

/-- Modelled from the spec: `detect_introduction` lives in the missing
`pyriksdagen.segmentation` module.  Per the spec (§4.2), a node is a
confirmed introduction iff its identifier is in the externally
pre-identified confirmed-intro table, which supplies the matched template
text and the optional resolved speaker. -/
def detect_introduction (elemId : Option Str) (intro_ids : IntroTable) :
    Option Intro :=
  match elemId with
  | none => none
  | some i => (intro_ids.find? (fun p => p.1 = i)).map (fun p => p.2)

/-- The introduction-pattern table; `find_introductions` computes
`expression_dicts(pattern_db)` but never uses the result, so the rows are
opaque here. -/
abbrev PatternDb := List Str

/-- refine.py lines 268-276 (segment case): locate the split boundary.
`":" in seg` tests membership among the *children of the lxml element*,
never equal to a one-character string, so both conditions guarded by it
are constantly false; they are kept because their left operands
(`matched_txt[-1]`, `seg.text[-1]`) are still evaluated and can raise
`IndexError`.  The only live branch is `":" in matched_txt`, giving the
first colon of the matched span, positioned at the first occurrence of
the matched span in the text. -/
def segBoundary (segText matched : Str) : Except PyErr (Option Nat) :=
  match lastCharE matched with
  | Except.error e => Except.error e
  | Except.ok lc =>
    let _dead1 := (lc ≠ ':') && false
    if isSubstr strColon matched then
      match pyIndexE matched strColon with
      | Except.error e => Except.error e
      | Except.ok i1 =>
        match pyIndexE segText matched with
        | Except.error e => Except.error e
        | Except.ok i2 => Except.ok (some (i1 + i2))
    else
      match lastCharE segText with
      | Except.error e => Except.error e
      | Except.ok lc2 =>
        let _dead2 := (lc2 ≠ ':') && false
        Except.ok none

/-- refine.py lines 305-312 (note case): locate the split boundary.  Here
the first condition really tests `":" in elem.text`, so when the matched
span has no colon but does not end the text's colons, the boundary is the
character position just past the matched span; a colon inside the matched
span overrides it with the position of the *first* colon of the span; the
final `elif` is again guarded by the always-false element membership. -/
def noteBoundary (t matched : Str) : Except PyErr (Option Nat) :=
  match lastCharE matched with
  | Except.error e => Except.error e
  | Except.ok lc =>
    let step1 : Except PyErr (Option Nat) :=
      if lc ≠ ':' && isSubstr strColon t then
        match pyIndexE t matched with
        | Except.error e => Except.error e
        | Except.ok i => Except.ok (some (matched.length + i))
      else Except.ok none
    match step1 with
    | Except.error e => Except.error e
    | Except.ok ixA =>
      if isSubstr strColon matched then
        match pyIndexE matched strColon with
        | Except.error e => Except.error e
        | Except.ok i1 =>
          match pyIndexE t matched with
          | Except.error e => Except.error e
          | Except.ok i2 => Except.ok (some (i1 + i2))
      else
        match lastCharE t with
        | Except.error e => Except.error e
        | Except.ok lc2 =>
          let _dead := (lc2 ≠ ':') && false
          Except.ok ixA

/-- Fold state for the scan over one utterance's segments: the segments
that stay on the original utterance, the fully emitted trailing siblings,
and the latest announcement with its still-growing new utterance. -/
structure SegFold where
  kept : List Seg
  done : List Node
  cur : Option (NoteN × Utt)

/-- Emit the pending announcement/utterance pair. -/
def flushCur : Option (NoteN × Utt) → List Node
  | none => []
  | some (nn, uu) => [Node.note nn, Node.u uu]

/-- refine.py lines 245-287: process one segment of an utterance.  A
matched segment is retagged as a speaker note and moved out behind the
previous emission point, a new utterance is created right after it
(always, split or not), and when the matched span contains a colon the
text is cut after that colon and the remainder becomes the new
utterance's first segment (no emptiness check in this branch).  A
non-matched string segment is appended to the pending new utterance when
one exists and stays on the original utterance otherwise; a segment with
no string text always stays. -/
def segStep (tbl : IntroTable) (st : SegFold) (s : Seg) :
    Except PyErr SegFold :=
  match s.text with
  | none => Except.ok { st with kept := st.kept ++ [s] }
  | some t =>
    match detect_introduction s.id tbl with
    | some intro =>
      let who := intro.who.getD strUnknown
      match segBoundary t intro.txt with
      | Except.error e => Except.error e
      | Except.ok (some i) =>
        let nn : NoteN := ⟨s.id, some strSpeaker, some (t.take (i + 1))⟩
        let uu : Utt := ⟨none, some who, none, none, [⟨none, some (t.drop (i + 1))⟩]⟩
        Except.ok ⟨st.kept, st.done ++ flushCur st.cur, some (nn, uu)⟩
      | Except.ok none =>
        let nn : NoteN := ⟨s.id, some strSpeaker, some t⟩
        let uu : Utt := ⟨none, some who, none, none, []⟩
        Except.ok ⟨st.kept, st.done ++ flushCur st.cur, some (nn, uu)⟩
    | none =>
      match st.cur with
      | some (nn, uu) =>
        Except.ok { st with cur := some (nn, { uu with segs := uu.segs ++ [s] }) }
      | none => Except.ok { st with kept := st.kept ++ [s] }

/-- Run `segStep` over all segments of an utterance. -/
def foldSegs (tbl : IntroTable) : List Seg → SegFold → Except PyErr SegFold
  | [], st => Except.ok st
  | s :: rest, st =>
    match segStep tbl st s with
    | Except.ok st' => foldSegs tbl rest st'
    | Except.error e => Except.error e

/-- refine.py lines 289-336: process one top-level note.  A matched note
not yet typed `speaker` is reclassified; if a boundary is found and the
stripped remainder is non-empty the text is truncated after the boundary
and the remainder becomes the first segment of a new utterance inserted
right after the note (the inserted segment text is the unstripped
remainder).  A matched note already typed `speaker` is left alone; a
non-matched note typed `speaker` loses the marking when `remove_missing`. -/
def processNote (tbl : IntroTable) (rm : Bool) (nn : NoteN) :
    Except PyErr (List Node) :=
  match nn.text with
  | none => Except.ok [Node.note nn]
  | some t =>
    match detect_introduction nn.id tbl with
    | some intro =>
      if nn.type = some strSpeaker then Except.ok [Node.note nn]
      else
        let nn1 := { nn with type := some strSpeaker }
        match noteBoundary t intro.txt with
        | Except.error e => Except.error e
        | Except.ok (some i) =>
          let rest0 := stripS (t.drop (i + 1))
          if rest0.length > 0 then
            let who := intro.who.getD strUnknown
            let uu : Utt := ⟨none, some who, none, none, [⟨none, some (t.drop (i + 1))⟩]⟩
            Except.ok [Node.note { nn1 with text := some (t.take (i + 1)) }, Node.u uu]
          else Except.ok [Node.note nn1]
        | Except.ok none => Except.ok [Node.note nn1]
    | none =>
      if nn.type = some strSpeaker && rm then
        Except.ok [Node.note { nn with type := none }]
      else Except.ok [Node.note nn]

/-- Process one body node of `find_introductions`. -/
def processNode (tbl : IntroTable) (rm : Bool) : Node → Except PyErr (List Node)
  | Node.u un =>
    match foldSegs tbl un.segs ⟨[], [], none⟩ with
    | Except.error e => Except.error e
    | Except.ok fin =>
      Except.ok (Node.u { un with segs := fin.kept } :: (fin.done ++ flushCur fin.cur))
  | Node.note nn => processNote tbl rm nn
  | Node.pb pp => Except.ok [Node.pb pp]

/-- Structural-recursion `mapM` for `Except`, used by the division passes. -/
def mapME (f : α → Except PyErr β) : List α → Except PyErr (List β)
  | [] => Except.ok []
  | x :: rest =>
    match f x with
    | Except.error e => Except.error e
    | Except.ok y =>
      match mapME f rest with
      | Except.error e => Except.error e
      | Except.ok ys => Except.ok (y :: ys)

/-- Whether a node makes the source null its parent division's text
(`u_parent.text = None` for utterances, `parent.text = None` for notes). -/
def clearsParentText : Node → Bool
  | Node.u _ => true
  | Node.note _ => true
  | Node.pb _ => false

/-- Process one body division of `find_introductions`: every original node
is rewritten into its emission list (the iteration is over a snapshot of
`elem_iter`, so nodes inserted during the pass are not revisited), and the
division's text is nulled as soon as it contains an utterance or note. -/
def processDiv (tbl : IntroTable) (rm : Bool) (dv : BodyDiv) :
    Except PyErr BodyDiv :=
  match mapME (processNode tbl rm) dv.nodes with
  | Except.error e => Except.error e
  | Except.ok lists =>
    Except.ok ⟨dv.typ,
      (if dv.nodes.any clearsParentText then none else dv.text),
      lists.flatten⟩

/-- `find_introductions` (refine.py lines 222-338).  `pattern_db` is
consumed by `expression_dicts` whose result the source never uses;
`minister_db` is deprecated and unused; `root.text` is nulled up front. -/
def find_introductions (doc : Doc) (pattern_db : PatternDb)
    (intro_ids : IntroTable) (remove_missing : Bool) : Except PyErr Doc :=
  let _expressions := pattern_db
  match mapME (processDiv intro_ids remove_missing) doc.divs with
  | Except.error e => Except.error e
  | Except.ok divs => Except.ok ⟨doc.front, divs, none⟩

/-! ## Identifier assignment (`update_ids`, refine.py lines 478-509) -/

/-- `update_ids` (refine.py lines 478-509).  The source sets
`xml_id = f"{XML_NS}id"` on line 491 but every attribute access in the
loop reads `f'{xml_ns}id'`; the lower-case name `xml_ns` is a local
variable of `detect_mps` and is not defined at module scope, so the first
f-string evaluation — in the first iteration of the loop, whichever tag
is yielded first (for a `u`, its first child if any, else the `u` itself;
for a `note` or `pb`, the element) — raises
`NameError: name 'xml_ns' is not defined`.  Only a document whose body
yields no element completes, returning the empty identifier set. -/
def update_ids (doc : Doc) (protocol_id : Str) : Except PyErr (Doc × List Str) :=
  match flattenDoc doc with
  | [] => Except.ok (doc, [])
  | _ :: _ => Except.error (PyErr.nameError "name 'xml_ns' is not defined")

/-! ## Date inference (`detect_date`, refine.py lines 341-475)

The four `re.search` patterns of the source are fixed, so they are
hand-compiled below into matchers with Python regex semantics: the search
scans start positions left to right, the bounded classes `\w{lo,hi}` /
`\d{lo,hi}` and the optional dot are greedy with backtracking. -/

/-- Python regex `\w` for the Swedish text of the protocols: ASCII word
characters plus the Swedish (and common loan) letters. -/
def isWordChar (c : Char) : Bool :=
  c.isAlpha || c.isDigit || c = '_' ||
    c ∈ ['å', 'ä', 'ö', 'Å', 'Ä', 'Ö', 'é', 'è', 'ü', 'É']

/-- Length of the maximal prefix of `s` satisfying `p`. -/
def charRun (p : Char → Bool) : Str → Nat
  | [] => 0
  | c :: rest => if p c then charRun p rest + 1 else 0

/-- The list `n, n-1, …, lo` (empty when `n < lo`). -/
def descLens (lo n : Nat) : List Nat :=
  (List.range' lo (n + 1 - lo)).reverse

/-- Greedy bounded character-class repetition with backtracking: try the
longest admissible run first, passing the consumed part and the rest to
the continuation. -/
def greedyCls (p : Char → Bool) (lo hi : Nat) (s : Str)
    (k : Str → Str → Option α) : Option α :=
  (descLens lo (min hi (charRun p s))).findSome?
    (fun n => k (s.take n) (s.drop n))

/-- Match a literal, then continue. -/
def litK (lit s : Str) (k : Str → Option α) : Option α :=
  if startsW s lit then k (s.drop lit.length) else none

/-- Greedy `\.?`: try consuming a dot first, backtrack to not consuming. -/
def optDot (s : Str) (k : Str → Option α) : Option α :=
  match s with
  | '.' :: rest =>
    match k rest with
    | some r => some r
    | none => k s
  | _ => k s

/-- Run an anchored matcher at every start position, leftmost match first
(Python `re.search`). -/
def searchPos (m : Str → Option α) : Str → Option α
  | [] => m []
  | c :: rest =>
    match m (c :: rest) with
    | some r => some r
    | none => searchPos m rest

/-- Anchored matcher for `\w{3,5}dagen den (\d{1,2})\.? (\w{3,9}) (\d{4})`,
returning the three groups. -/
def m1At (s : Str) : Option (Str × Str × Str) :=
  greedyCls isWordChar 3 5 s (fun _ s1 =>
    litK (sl "dagen den ") s1 (fun s2 =>
      greedyCls Char.isDigit 1 2 s2 (fun g1 s3 =>
        optDot s3 (fun s4 =>
          litK (sl " ") s4 (fun s5 =>
            greedyCls isWordChar 3 9 s5 (fun g2 s6 =>
              litK (sl " ") s6 (fun s7 =>
                greedyCls Char.isDigit 4 4 s7 (fun g3 _ =>
                  some (g1, g2, g3)))))))))

/-- Anchored matcher for `\w{3,5}dagen den (\d{1,2})\.? (\w{3,9})`. -/
def m2At (s : Str) : Option (Str × Str) :=
  greedyCls isWordChar 3 5 s (fun _ s1 =>
    litK (sl "dagen den ") s1 (fun s2 =>
      greedyCls Char.isDigit 1 2 s2 (fun g1 s3 =>
        optDot s3 (fun s4 =>
          litK (sl " ") s4 (fun s5 =>
            greedyCls isWordChar 3 9 s5 (fun g2 _ =>
              some (g1, g2)))))))

/-- Anchored matcher for `(\d{1,2})\.? (\w{3,9}) (\d{4,4})`, returning the
number of consumed characters (for `group()`). -/
def m3At (s : Str) : Option Nat :=
  greedyCls Char.isDigit 1 2 s (fun _ s1 =>
    optDot s1 (fun s2 =>
      litK (sl " ") s2 (fun s3 =>
        greedyCls isWordChar 3 9 s3 (fun _ s4 =>
          litK (sl " ") s4 (fun s5 =>
            greedyCls Char.isDigit 4 4 s5 (fun _ rest =>
              some (s.length - rest.length)))))))

/-- Anchored matcher for `(D|d)en (\d{1,2})\.? (\w{3,9})`, returning the
number of consumed characters (for `group()`). -/
def m4At (s : Str) : Option Nat :=
  match s with
  | c :: s1 =>
    if c = 'D' || c = 'd' then
      litK (sl "en ") s1 (fun s2 =>
        greedyCls Char.isDigit 1 2 s2 (fun _ s3 =>
          optDot s3 (fun s4 =>
            litK (sl " ") s4 (fun s5 =>
              greedyCls isWordChar 3 9 s5 (fun _ rest =>
                some (s.length - rest.length))))))
    else none
  | [] => none

/-- `re.search(expression, t)` with the weekday-date-year pattern. -/
def reSearch1 (t : Str) : Option (Str × Str × Str) := searchPos m1At t

/-- `re.search(expression2, t)` with the weekday-date pattern. -/
def reSearch2 (t : Str) : Option (Str × Str) := searchPos m2At t

/-- `re.search(expression3, t)`; the result is the whole matched span. -/
def reSearch3 (t : Str) : Option Str :=
  searchPos (fun suf => (m3At suf).map (fun n => suf.take n)) t

/-- `re.search(expression4, t)`; the result is the whole matched span. -/
def reSearch4 (t : Str) : Option Str :=
  searchPos (fun suf => (m4At suf).map (fun n => suf.take n)) t

/-- A calendar date (the `datetime` values `detect_date` collects). -/
structure Date where
  year : Nat
  month : Nat
  day : Nat
  deriving DecidableEq, Repr

/-- Numeric value of a digit string. -/
def digitsVal (s : Str) : Nat :=
  s.foldl (fun a c => a * 10 + (c.toNat - 48)) 0

/-- Parse a non-empty all-digit string. -/
def natOfDigits? (s : Str) : Option Nat :=
  if s ≠ [] && s.all Char.isDigit then some (digitsVal s) else none

/-- Swedish month names. -/
def swedishMonth? (s : Str) : Option Nat :=
  if s = sl "januari" then some 1
  else if s = sl "februari" then some 2
  else if s = sl "mars" then some 3
  else if s = sl "april" then some 4
  else if s = sl "maj" then some 5
  else if s = sl "juni" then some 6
  else if s = sl "juli" then some 7
  else if s = sl "augusti" then some 8
  else if s = sl "september" then some 9
  else if s = sl "oktober" then some 10
  else if s = sl "november" then some 11
  else if s = sl "december" then some 12
  else none

/-- Model of the external `dateparser` library call
`dateparser.parse(s, languages=["sv"])` for the phrase shapes `detect_date`
feeds it: an optional leading Swedish determiner "den", then day number,
Swedish month name, four-digit year.  Unparsable input gives `none`. -/
def dateparse_sv (s : Str) : Option Date :=
  let toks0 := splitWs s
  let toks :=
    match toks0 with
    | t :: rest => if lowerS t = sl "den" then rest else toks0
    | [] => []
  match toks with
  | [ds, ms, ys] => do
    let d ← natOfDigits? ds
    let mo ← swedishMonth? (lowerS ms)
    let yr ← natOfDigits? ys
    if 1 ≤ d && d ≤ 31 then some ⟨yr, mo, d⟩ else none
  | _ => none

/-- Python `set.add`; set contents are modelled in insertion order (the
source converts its sets to lists with `list(...)` and `sorted(...)`). -/
def pyAddSet [DecidableEq α] (l : List α) (x : α) : List α :=
  if x ∈ l then l else l ++ [x]

/-- The three accumulators of `detect_date`. -/
structure DDSt where
  dates : List Date
  numberDates : List Date
  yearless : List Str
  deriving DecidableEq, Repr

/-- The `type` attribute visible on a sibling during the backward scan of
`_is_sjukbetyg` (only notes carry one in this model). -/
def nodeTypeAttr : Node → Option Str
  | Node.note nn => nn.type
  | _ => none

/-- The `.text` of a sibling during the backward scan (only notes hold
text in this model; for `u`/`pb` lxml yields `None`). -/
def nodeText : Node → Option Str
  | Node.note nn => nn.text
  | _ => none

/-- The `(läkar|sjuk)(in|be)tyg` pattern of `_is_sjukbetyg`. -/
def sjukPat (t : Str) : Bool :=
  isSubstr (sl "läkarintyg") t || isSubstr (sl "läkarbetyg") t ||
    isSubstr (sl "sjukintyg") t || isSubstr (sl "sjukbetyg") t

/-- The `while` loop of `_is_sjukbetyg` (refine.py lines 373-384) over the
preceding siblings, nearest first: each sibling's text is searched, and
the walk stops after a sibling typed `title` (which is itself searched)
or at the beginning. -/
def sjukWalk : List Node → Bool → Bool
  | [], found => found
  | e :: rest, found =>
    let found := found ||
      (match nodeText e with
       | some t => sjukPat t
       | none => false)
    if nodeTypeAttr e = some (sl "title") then found else sjukWalk rest found

/-- `_is_sjukbetyg` (refine.py lines 367-384): constantly false unless
`skip_doctors_notes` was requested. -/
def isSjuk (skip : Bool) (pre : List Node) : Bool :=
  if skip then sjukWalk pre false else false

/-- Process one body node of the `detect_date` scan (refine.py lines
386-434): only short note texts are examined; a prior `date` marking is
turned into the `REMOVE` sentinel, the four patterns are tried in the
source's branch order, the accumulators are extended, and the sentinel is
rolled back to no marking when no branch reclassified the note. -/
def ddStepNode (skip : Bool) (years : List Nat) (pre : List Node) (n : Node)
    (st : DDSt) : Node × DDSt :=
  match n with
  | Node.note nn =>
    match nn.text with
    | some t =>
      if normLen t < 50 then
        let ty0 := if nn.type = some (sl "date") then some (sl "REMOVE") else nn.type
        let sjuk := isSjuk skip pre
        let res : Option Str × DDSt :=
          match reSearch1 t with
          | some (g1, g2, g3) =>
            let ty1 := if ty0 ≠ some (sl "title") then some (sl "date") else ty0
            let st1 :=
              match dateparse_sv (g1 ++ sl " " ++ g2 ++ sl " " ++ g3) with
              | some d =>
                if ¬ sjuk then
                  if d.year ∈ years then
                    { st with numberDates := pyAddSet st.numberDates d }
                  else st
                else st
              | none => st
            (ty1, st1)
          | none =>
            match reSearch3 t with
            | some whole =>
              if ¬ sjuk then
                let st1 :=
                  match dateparse_sv whole with
                  | some d =>
                    if d.year ∈ years then { st with dates := pyAddSet st.dates d }
                    else st
                  | none => st
                (ty0, st1)
              else
                ddElse2 t ty0 sjuk st
            | none => ddElse2 t ty0 sjuk st
        let tyF := if res.1 = some (sl "REMOVE") then none else res.1
        (Node.note { nn with type := tyF }, res.2)
      else (n, st)
    | none => (n, st)
  | _ => (n, st)
where
  /-- The `elif weekday_and_date …` / `elif den_and_date …` tail of the
  branch chain. -/
  ddElse2 (t : Str) (ty0 : Option Str) (sjuk : Bool) (st : DDSt) :
      Option Str × DDSt :=
    match reSearch2 t with
    | some (g1, g2) =>
      if ¬ sjuk then
        let ty1 := if ty0 ≠ some (sl "title") then some (sl "date") else ty0
        (ty1, { st with yearless := pyAddSet st.yearless (g1 ++ sl " " ++ g2) })
      else ddElse3 t ty0 sjuk st
    | none => ddElse3 t ty0 sjuk st
  /-- The final `elif den_and_date …` branch. -/
  ddElse3 (t : Str) (ty0 : Option Str) (sjuk : Bool) (st : DDSt) :
      Option Str × DDSt :=
    match reSearch4 t with
    | some whole =>
      if ¬ sjuk then
        if normLen t < 30 then
          let ty1 := if ty0 ≠ some (sl "title") then some (sl "date") else ty0
          (ty1, { st with yearless := pyAddSet st.yearless whole })
        else (ty0, st)
      else (ty0, st)
    | none => (ty0, st)

/-- Scan the nodes of one division, threading the preceding processed
siblings (nearest first) for `_is_sjukbetyg`. -/
def ddDivNodes (skip : Bool) (years : List Nat) :
    List Node → List Node → DDSt → List Node × DDSt
  | [], _, st => ([], st)
  | n :: rest, pre, st =>
    let r := ddStepNode skip years pre n st
    let tail := ddDivNodes skip years rest (r.1 :: pre) r.2
    (r.1 :: tail.1, tail.2)

/-- Scan all body divisions. -/
def ddDivs (skip : Bool) (years : List Nat) :
    List BodyDiv → DDSt → List BodyDiv × DDSt
  | [], st => ([], st)
  | dv :: rest, st =>
    let r := ddDivNodes skip years dv.nodes [] st
    let tail := ddDivs skip years rest r.2
    (⟨dv.typ, dv.text, r.1⟩ :: tail.1, tail.2)

/-- Decimal digits of a number. -/
def natToStr (n : Nat) : Str := (toString n).toList

/-- Two-digit zero padding (`%m`, `%d`). -/
def pad2 (n : Nat) : Str := if n < 10 then '0' :: natToStr n else natToStr n

/-- `d.strftime("%Y-%m-%d")`. -/
def fmtDate (d : Date) : Str :=
  natToStr d.year ++ sl "-" ++ pad2 d.month ++ sl "-" ++ pad2 d.day

/-- Date order for `sorted(dates)`. -/
def dle (a b : Date) : Bool :=
  a.year < b.year || (a.year = b.year &&
    (a.month < b.month || (a.month = b.month && a.day ≤ b.day)))

/-- Insert into a `dle`-sorted list. -/
def insSorted (x : Date) : List Date → List Date
  | [] => [x]
  | y :: rest => if dle x y then x :: y :: rest else y :: insSorted x rest

/-- `sorted(dates)`. -/
def sortDates (l : List Date) : List Date := l.foldr insSorted []

/-- `detect_date` (refine.py lines 341-475): scan, swap the two date pools
(explicit weekday+year matches take priority), complete the yearless
matches with the inferred protocol year, sort, and rewrite the front
matter's `docDate` declarations (all prior ones removed, the formatted
dates — or the `YEAR-01-01` default — attached to the preface division). -/
def detect_date (doc : Doc) (metadata : Metadata) (skip_doctors_notes : Bool) :
    Doc × List Date :=
  let years := [metadata.year, metadata.secondaryYear.getD metadata.year]
  let scan := ddDivs skip_doctors_notes years doc.divs ⟨[], [], []⟩
  let st := scan.2
  let dates0 := st.numberDates
  let number0 := st.dates
  let sel : List Date × Nat :=
    match dates0 with
    | d :: _ => (dates0, d.year)
    | [] =>
      match number0 with
      | d :: _ => (number0, d.year)
      | [] => ([], metadata.year)
  let dates2 := sel.1
  let protoYear := sel.2
  let dates3 := st.yearless.foldl
    (fun acc ds =>
      match dateparse_sv (ds ++ sl " " ++ natToStr protoYear) with
      | some d => pyAddSet acc d
      | none => acc) dates2
  let sorted := sortDates dates3
  let formatted :=
    if sorted.isEmpty then [natToStr protoYear ++ sl "-01-01"]
    else sorted.map fmtDate
  let front' := doc.front.map fun fd =>
    ⟨fd.typ, if fd.typ = some (sl "preface") then formatted else []⟩
  (⟨front', scan.1, doc.rootText⟩, sorted)

/-! ## Concrete instantiations used by counterexamples and witnesses -/

/-- A resolver context whose strategies are total and resolve nothing. -/
def ctxNone : Ctx :=
  ⟨fun _ => ⟨none, none, none, none⟩, fun s => s,
   fun _ _ _ => Except.ok none,
   fun _ _ _ => Except.ok none,
   fun _ _ _ _ => Except.ok none⟩

/-- A context parsing every announcement into name `Nils` with the neutral
role phrase `ledamoten`, whose member resolver always resolves to `Q1`. -/
def ctxRole : Ctx :=
  ⟨fun _ => ⟨some (sl "Nils"), some (sl "ledamoten"), none, none⟩, fun s => s,
   fun _ _ _ => Except.ok none,
   fun _ _ _ => Except.ok none,
   fun _ _ _ _ => Except.ok (some (sl "Q1"))⟩

/-- A context parsing a bare name, whose member resolver resolves only
against a registry slice containing a second-chamber row. -/
def ctxFallback : Ctx :=
  ⟨fun _ => ⟨some (sl "Nils"), none, none, none⟩, fun s => s,
   fun _ _ _ => Except.ok none,
   fun _ _ _ => Except.ok none,
   fun _ db _ _ =>
     Except.ok (if db.any (fun r => r.chamber = 2) then some (sl "Q2") else none)⟩

/-- A context whose minister resolver raises on every input. -/
def ctxThrow : Ctx :=
  ⟨fun _ => ⟨some (sl "Nils"), some (sl "statsrådet"), none, none⟩, fun s => s,
   fun _ _ _ => Except.error (PyErr.valueError "malformed registry row"),
   fun _ _ _ => Except.ok none,
   fun _ _ _ _ => Except.ok none⟩

/-- An utterance node with the given identifier and no other attributes. -/
def uNode (i : String) : Node := Node.u ⟨some (sl i), none, none, none, []⟩

/-- A speaker-announcement note with the given identifier and text. -/
def spNote (i t : String) : Node :=
  Node.note ⟨some (sl i), some (sl "speaker"), some (sl t)⟩

/-- Two ordinary one-utterance divisions. -/
def docTwoDivs : Doc :=
  ⟨[], [⟨none, none, [uNode "a"]⟩, ⟨none, none, [uNode "b"]⟩], none⟩

/-- One ordinary division: an announcement followed by an utterance. -/
def docAnnounceU : Doc :=
  ⟨[], [⟨none, none, [spNote "n1" "Ledamoten Nils", uNode "a"]⟩], none⟩

/-- Bicameral metadata (first chamber). -/
def mdFirst : Metadata := ⟨1900, none, some (sl "Första kammaren")⟩

/-- A two-chamber member registry. -/
def mpBoth : List MPRow := [⟨1, sl "r1"⟩, ⟨2, sl "r2"⟩]

/-! ## Claim C2 — identifier assignment -/

/-- Claim C2 (code bug): `update_ids` is claimed to assign fresh
identifiers to unidentified nodes and return the full identifier set, but
on any document whose body yields at least one node it raises `NameError`,
because every attribute access interpolates the undefined module-level
name `xml_ns` (the intended local `xml_id` is defined one line earlier and
never used).  Here it is evaluated on a document holding one note. -/
theorem update_ids_nameerror :
    update_ids ⟨[], [⟨none, none, [Node.note ⟨none, none, none⟩]⟩], none⟩
        (sl "prot-1900--fk--1") =
      Except.error (PyErr.nameError "name 'xml_ns' is not defined") := rfl

/-! ## Claim C10 — speaker note without string text -/

/-- Claim C10 (code bug): a `note` of type `speaker` whose text is `None`
is claimed to be skipped gracefully (`prev` reset, `current_speaker`
kept, no observation).  The `type(text) == str` guard at refine.py line
172 shows that intent, but the debug-logging f-string on line 171
evaluates `' '.join(text.split())` first, so the scan raises
`AttributeError` and aborts instead. -/
theorem detect_mps_none_text_note_raises :
    detect_mps ctxNone
        ⟨[], [⟨none, none,
          [Node.note ⟨some (sl "n0"), some (sl "speaker"), none⟩, uNode "a"]⟩], none⟩
        [] [] [] ⟨1900, none, none⟩ [] (some (sl "p1")) [] =
      Except.error (PyErr.attributeError "NoneType object has no attribute split") := rfl

/-! ## Claim C7 — concrete date inference -/

/-- The single-note document used by the date-inference examples. -/
def ddDoc (t : String) : Doc :=
  ⟨[⟨some (sl "preface"), []⟩],
   [⟨none, none, [Node.note ⟨some (sl "d1"), none, some (sl t)⟩]⟩], none⟩

/-- Claim C7: on a declared-year-1900 document, `detect_date` infers
exactly {1900-01-03} from a note reading "tisdagen den 3 januari 1900",
and also exactly {1900-01-03} from a note reading "den 3 januari" when no
other dated note exists (the yearless match is completed with the
declared year). -/
theorem detect_date_concrete_examples :
    (detect_date (ddDoc "tisdagen den 3 januari 1900") ⟨1900, none, none⟩ false).2 =
        [⟨1900, 1, 3⟩] ∧
      (detect_date (ddDoc "den 3 januari") ⟨1900, none, none⟩ false).2 =
        [⟨1900, 1, 3⟩] :=
  ⟨rfl, rfl⟩

/-! ## Claim C3 — counterexample: the chain crosses division boundaries -/

/-- Claim C3 counterexample: on two consecutive ordinary divisions holding
one utterance each, `detect_mps` links the two utterances (`next` of the
division-0 utterance names the division-1 utterance and conversely),
because the `prev` state variable is never reset at a division boundary —
refuting "no chain pointer connects utterances from different sections". -/
theorem detect_mps_cross_division_link :
    detect_mps ctxNone docTwoDivs [] [] [] ⟨1900, none, none⟩ [] (some (sl "p1")) [] =
      Except.ok
        ([⟨0, none, Node.u ⟨some (sl "a"), some strUnknown, none, some (sl "b"), []⟩⟩,
          ⟨1, none, Node.u ⟨some (sl "b"), some strUnknown, some (sl "a"), none, []⟩⟩],
         []) := rfl

/-! ## Claim C1 — counterexample: a neutral role phrase blocks member lookup -/

/-- Claim C1 counterexample: an announcement parsed with the personal name
`Nils` *and* a role phrase `ledamoten` that indicates neither a minister
nor a presiding officer never reaches the member registry: although the
member resolver would return `Q1` on any input, the cascade's
`elif 'name' in d` branch is unreachable when the `other` key is present,
so the utterance is attributed "unknown" and an unknown-speaker
observation is recorded. -/
theorem detect_mps_role_name_counterexample :
    detect_mps ctxRole docAnnounceU mpBoth [] [] mdFirst [] (some (sl "p1"))
        [sl "gender", sl "party", sl "other"] =
      Except.ok
        ([⟨0, none, Node.note ⟨some (sl "n1"), some strSpeaker, some (sl "Ledamoten Nils")⟩⟩,
          ⟨0, none, Node.u ⟨some (sl "a"), some strUnknown, none, none, []⟩⟩],
         [[some (sl "p1"), some (sl "n1"), some [], some [], some (sl "ledamoten")]]) := rfl

/-! ## Claim C5 — counterexample: a throwing strategy aborts the scan -/

/-- Claim C5 counterexample: when the minister-resolution strategy raises
on a ministerial announcement, nothing in the per-node scan catches the
exception: `detect_mps` returns the error and the remaining nodes (here
the following utterance) are never processed — refuting
"caught and treated as no match". -/
theorem detect_mps_strategy_error_counterexample :
    detect_mps ctxThrow
        ⟨[], [⟨none, none, [spNote "n1" "Statsrådet Nils", uNode "a"]⟩], none⟩
        [] [] [] ⟨1900, none, none⟩ [] (some (sl "p1")) [] =
      Except.error (PyErr.valueError "malformed registry row") := rfl

/-! ## Claim C8 — counterexample: the observation records caller-chosen
fields, not the parsed name -/

/-- The unknown-speaker observation recorded in the C8 counterexample run. -/
def entryC8 : List (Option Str) :=
  [some (sl "p2"), some (sl "n1"), some [], some [], some (sl "ledamoten")]

/-- Claim C8 counterexample: with the in-repo caller's
`unknown_variables = ["gender", "party", "other"]`, the observation for an
unresolved announcement parsed as name `Nils` / other `ledamoten` holds
the protocol id, the node id and the `gender`/`party`/`other` values — the
parsed *name* is not part of the record, refuting "containing … the parsed
(possibly empty) name/role/other fields". -/
theorem detect_mps_unknown_entry_counterexample :
    detect_mps ctxRole
        ⟨[], [⟨none, none, [spNote "n1" "Ledamoten Nils"]⟩], none⟩
        mpBoth [] [] mdFirst [] (some (sl "p2"))
        [sl "gender", sl "party", sl "other"] =
      Except.ok
        ([⟨0, none, Node.note ⟨some (sl "n1"), some strSpeaker, some (sl "Ledamoten Nils")⟩⟩],
         [entryC8]) ∧
      ¬ some (sl "Nils") ∈ entryC8 :=
  ⟨rfl, by decide⟩

/-! ## Claim C6 — counterexample: the split uses the *first* colon of the
matched span -/

/-- Claim C6 counterexample: on a note reading "AB: CD: EF" whose matched
template span is "AB: CD:", the claimed boundary (the colon closest to
the end of the matched span / the first colon after it) would keep
"AB: CD:" on the announcement; the code instead cuts at the *first* colon
of the matched span, keeping only "AB:" and moving " CD: EF" into the new
utterance. -/
theorem find_introductions_first_colon_counterexample :
    find_introductions
        ⟨[], [⟨none, none, [Node.note ⟨some (sl "n1"), none, some (sl "AB: CD: EF")⟩]⟩], none⟩
        [] [(sl "n1", ⟨sl "AB: CD:", some (sl "who1")⟩)] true =
      Except.ok
        ⟨[], [⟨none, none,
          [Node.note ⟨some (sl "n1"), some strSpeaker, some (sl "AB:")⟩,
           Node.u ⟨none, some (sl "who1"), none, none, [⟨none, some (sl " CD: EF")⟩]⟩]⟩], none⟩ ∧
      (sl "AB:" : Str) ≠ sl "AB: CD:" :=
  ⟨rfl, by decide⟩

/-! ## Scan-decomposition lemmas -/

/-- The scan of a concatenation is the scan of the prefix followed, on
success, by the scan of the suffix. -/
theorem runNodes_append (cfg : DCfg) (l1 l2 : List BNode) (st : MSt) :
    runNodes cfg (l1 ++ l2) st =
      match runNodes cfg l1 st with
      | Except.ok st1 => runNodes cfg l2 st1
      | Except.error e => Except.error e := by
  induction l1 generalizing st with
  | nil => rfl
  | cons b rest ih =>
    simp only [List.cons_append, runNodes]
    cases stepNode cfg st b with
    | ok st1 => exact ih st1
    | error e => rfl

/-! ## Claim C5 — amended theorem: strategy exceptions propagate -/

/-- Claim C5 (amended): an exception thrown by a registry-resolution
strategy while resolving a speaker announcement is *not* caught inside
the per-node scan: `detect_mps` returns that error, so the remaining
nodes of the document are not processed.  (The only guarded step of the
function is the page-URL probe before the scan starts.) -/
theorem detect_mps_strategy_error_propagates (ctx : Ctx) (doc : Doc)
    (mp_db : List MPRow) (minister_db : List MinisterRow)
    (speaker_db : List SpeakerRow) (metadata : Metadata)
    (party_map : PartyMap) (protocol_id : Option Str)
    (unknown_variables : List Str) (pre post : List BNode) (ix : Nat)
    (dt : Option Str) (nn : NoteN) (t : Str) (st : MSt) (e : PyErr)
    (hflat : flattenDoc doc = pre ++ ⟨ix, dt, Node.note nn⟩ :: post)
    (hdt : ¬ dt = some strCommentSection)
    (hty : nn.type = some strSpeaker)
    (ht : nn.text = some t)
    (hpre : runNodes
        (detectCfg ctx doc mp_db minister_db speaker_db metadata party_map
          protocol_id unknown_variables) pre ⟨none, none, [], []⟩ =
      Except.ok st)
    (hres : resolveIntro
        (detectCfg ctx doc mp_db minister_db speaker_db metadata party_map
          protocol_id unknown_variables) t = Except.error e) :
    detect_mps ctx doc mp_db minister_db speaker_db metadata party_map
        protocol_id unknown_variables = Except.error e := by
  unfold detect_mps
  rw [hflat, runNodes_append, hpre]
  simp [runNodes, stepNode, hdt, hty, ht, hres]

/-- Witness for `detect_mps_strategy_error_propagates`: the hypotheses are
satisfiable — at this concrete input the sixth hypothesis evaluates the
empty-prefix scan and the last one evaluates the throwing cascade. -/
theorem detect_mps_strategy_error_propagates_witness :
    detect_mps ctxThrow
        ⟨[], [⟨none, none, [spNote "n1" "Statsrådet Nils", uNode "a"]⟩], none⟩
        [] [] [] ⟨1901, none, none⟩ [] (some (sl "p9")) [] =
      Except.error (PyErr.valueError "malformed registry row") :=
  detect_mps_strategy_error_propagates ctxThrow
    ⟨[], [⟨none, none, [spNote "n1" "Statsrådet Nils", uNode "a"]⟩], none⟩
    [] [] [] ⟨1901, none, none⟩ [] (some (sl "p9")) []
    [] [⟨0, none, uNode "a"⟩] 0 none
    ⟨some (sl "n1"), some (sl "speaker"), some (sl "Statsrådet Nils")⟩
    (sl "Statsrådet Nils") ⟨none, none, [], []⟩
    (PyErr.valueError "malformed registry row")
    rfl (by decide) rfl rfl rfl rfl

/-! ## Claim C8 — amended theorem: the unknown-speaker observation -/

/-- Claim C8 (amended): whenever the resolution cascade for a
speaker-announcement note resolves nothing, the current speaker becomes
`none` (so subsequent utterances render "unknown"), the
previous-utterance state resets, and an unknown-speaker observation is
recorded holding the protocol identifier, the node identifier and the
parsed values (defaulting to "") of the caller-supplied
`unknown_variables` fields — `gender`/`party`/`other` for the in-repo
caller, not the parsed name; this path is not an error and the scan
continues with the remaining nodes. -/
theorem detect_mps_unknown_observation (cfg : DCfg) (pre post : List BNode)
    (ix : Nat) (dt : Option Str) (nn : NoteN) (t : Str) (st : MSt)
    (hdt : ¬ dt = some strCommentSection)
    (hty : nn.type = some strSpeaker)
    (ht : nn.text = some t)
    (hres : resolveIntro cfg t = Except.ok none) :
    runNodes cfg (pre ++ ⟨ix, dt, Node.note nn⟩ :: post) st =
      match runNodes cfg pre st with
      | Except.ok st1 =>
        runNodes cfg post
          ⟨none, none, st1.acc ++ [⟨ix, dt, Node.note nn⟩],
            st1.unknowns ++ [unknownEntry cfg nn.id (parsedDict cfg t)]⟩
      | Except.error e => Except.error e := by
  rw [runNodes_append]
  cases runNodes cfg pre st with
  | ok st1 => simp [runNodes, stepNode, hdt, hty, ht, hres]
  | error e => rfl

/-- Witness for `detect_mps_unknown_observation` at a concrete input. -/
theorem detect_mps_unknown_observation_witness :
    runNodes
        (detectCfg ctxRole ⟨[], [], none⟩ mpBoth [] [] mdFirst [] (some (sl "p3"))
          [sl "gender", sl "party", sl "other"])
        ([] ++ ⟨0, none, Node.note ⟨some (sl "n1"), some (sl "speaker"),
          some (sl "Ledamoten Nils")⟩⟩ :: [⟨0, none, uNode "a"⟩])
        ⟨none, none, [], []⟩ =
      match runNodes
          (detectCfg ctxRole ⟨[], [], none⟩ mpBoth [] [] mdFirst [] (some (sl "p3"))
            [sl "gender", sl "party", sl "other"])
          [] ⟨none, none, [], []⟩ with
      | Except.ok st1 =>
        runNodes
          (detectCfg ctxRole ⟨[], [], none⟩ mpBoth [] [] mdFirst [] (some (sl "p3"))
            [sl "gender", sl "party", sl "other"])
          [⟨0, none, uNode "a"⟩]
          ⟨none, none, st1.acc ++ [⟨0, none, Node.note ⟨some (sl "n1"),
            some (sl "speaker"), some (sl "Ledamoten Nils")⟩⟩],
            st1.unknowns ++ [unknownEntry
              (detectCfg ctxRole ⟨[], [], none⟩ mpBoth [] [] mdFirst []
                (some (sl "p3")) [sl "gender", sl "party", sl "other"])
              (some (sl "n1"))
              (parsedDict
                (detectCfg ctxRole ⟨[], [], none⟩ mpBoth [] [] mdFirst []
                  (some (sl "p3")) [sl "gender", sl "party", sl "other"])
                (sl "Ledamoten Nils"))]⟩
      | Except.error e => Except.error e :=
  detect_mps_unknown_observation
    (detectCfg ctxRole ⟨[], [], none⟩ mpBoth [] [] mdFirst [] (some (sl "p3"))
      [sl "gender", sl "party", sl "other"])
    [] [⟨0, none, uNode "a"⟩] 0 none
    ⟨some (sl "n1"), some (sl "speaker"), some (sl "Ledamoten Nils")⟩
    (sl "Ledamoten Nils") ⟨none, none, [], []⟩
    (by decide) rfl rfl rfl

/-! ## Claim C1 — amended theorem: chamber fallback for bare-name intros -/

/-- The member-lookup arm of the cascade: with no `other` key, a parsed
name, a failing primary lookup and a non-empty secondary slice, the
secondary lookup's identity is the result. -/
theorem resolveIntro_bare_name (cfg : DCfg) (t nm w : Str)
    (hother : (parsedDict cfg t).other = none)
    (hname : (parsedDict cfg t).name = some nm)
    (hprimary : cfg.ctx.detect_mp (parsedDict cfg t) cfg.mp_db cfg.party_map
        cfg.scanned = Except.ok none)
    (hsecne : 0 < cfg.mp_db_secondary.length)
    (hsec : cfg.ctx.detect_mp (parsedDict cfg t) cfg.mp_db_secondary
        cfg.party_map cfg.scanned = Except.ok (some w)) :
    resolveIntro cfg t = Except.ok (some w) := by
  unfold resolveIntro
  simp only [hother, hname, hprimary]
  simp [hsecne, hsec]

/-- Claim C1 (amended): for a speaker-announcement note whose parsed
introduction contains a personal name and *no* role/other phrase at all
(when a role phrase is parsed but indicates neither minister nor
presiding officer, no member lookup happens — see the counterexample),
the cascade resolves the name against the member registry filtered to
the document's chamber and, when that yields no match and the
complementary-chamber slice is non-empty, retries against the
complementary slice — so an announcement resolvable only against the
secondary chamber still yields that identity on the following
utterance. -/
theorem detect_mps_chamber_fallback (ctx : Ctx) (fr : List FrontDiv)
    (dty dtx rtx : Option Str) (nn : NoteN) (un : Utt) (t : Str)
    (mp_db : List MPRow) (minister_db : List MinisterRow)
    (speaker_db : List SpeakerRow) (metadata : Metadata) (ch : Str)
    (party_map : PartyMap) (protocol_id : Option Str)
    (unknown_variables : List Str) (nm w : Str)
    (hdt : ¬ dty = some strCommentSection)
    (hty : nn.type = some strSpeaker)
    (ht : nn.text = some t)
    (hch : metadata.chamber = some ch)
    (hother : (parsedDict
        (detectCfg ctx ⟨fr, [⟨dty, dtx, [Node.note nn, Node.u un]⟩], rtx⟩ mp_db
          minister_db speaker_db metadata party_map protocol_id
          unknown_variables) t).other = none)
    (hname : (parsedDict
        (detectCfg ctx ⟨fr, [⟨dty, dtx, [Node.note nn, Node.u un]⟩], rtx⟩ mp_db
          minister_db speaker_db metadata party_map protocol_id
          unknown_variables) t).name = some nm)
    (hprimary : ctx.detect_mp
        (parsedDict
          (detectCfg ctx ⟨fr, [⟨dty, dtx, [Node.note nn, Node.u un]⟩], rtx⟩ mp_db
            minister_db speaker_db metadata party_map protocol_id
            unknown_variables) t)
        (mp_db.filter (fun r => r.chamber = chamberNum ch)) party_map
        (scannedProtocol ⟨fr, [⟨dty, dtx, [Node.note nn, Node.u un]⟩], rtx⟩) =
      Except.ok none)
    (hsecne : 0 < (mp_db.filter (fun r => ¬ r.chamber = chamberNum ch)).length)
    (hsec : ctx.detect_mp
        (parsedDict
          (detectCfg ctx ⟨fr, [⟨dty, dtx, [Node.note nn, Node.u un]⟩], rtx⟩ mp_db
            minister_db speaker_db metadata party_map protocol_id
            unknown_variables) t)
        (mp_db.filter (fun r => ¬ r.chamber = chamberNum ch)) party_map
        (scannedProtocol ⟨fr, [⟨dty, dtx, [Node.note nn, Node.u un]⟩], rtx⟩) =
      Except.ok (some w)) :
    detect_mps ctx ⟨fr, [⟨dty, dtx, [Node.note nn, Node.u un]⟩], rtx⟩ mp_db
        minister_db speaker_db metadata party_map protocol_id
        unknown_variables =
      Except.ok
        ([⟨0, dty, Node.note nn⟩,
          ⟨0, dty, Node.u { un with prev := none, next := none, who := some w }⟩],
         []) := by
  have e1 : (detectCfg ctx ⟨fr, [⟨dty, dtx, [Node.note nn, Node.u un]⟩], rtx⟩
      mp_db minister_db speaker_db metadata party_map protocol_id
      unknown_variables).mp_db =
      mp_db.filter (fun r => r.chamber = chamberNum ch) := by
    simp [detectCfg, chamberSplit, hch]
  have e2 : (detectCfg ctx ⟨fr, [⟨dty, dtx, [Node.note nn, Node.u un]⟩], rtx⟩
      mp_db minister_db speaker_db metadata party_map protocol_id
      unknown_variables).mp_db_secondary =
      mp_db.filter (fun r => ¬ r.chamber = chamberNum ch) := by
    simp [detectCfg, chamberSplit, hch]
  have hres : resolveIntro
      (detectCfg ctx ⟨fr, [⟨dty, dtx, [Node.note nn, Node.u un]⟩], rtx⟩ mp_db
        minister_db speaker_db metadata party_map protocol_id
        unknown_variables) t = Except.ok (some w) :=
    resolveIntro_bare_name _ t nm w hother hname
      (by rw [e1]; exact hprimary)
      (by rw [e2]; exact hsecne)
      (by rw [e2]; exact hsec)
  unfold detect_mps
  have hflat : flattenDoc ⟨fr, [⟨dty, dtx, [Node.note nn, Node.u un]⟩], rtx⟩ =
      [⟨0, dty, Node.note nn⟩, ⟨0, dty, Node.u un⟩] := rfl
  rw [hflat]
  simp [runNodes, stepNode, hdt, hty, ht, hres, stripU, stripDelete, strDelete]

/-- Witness for `detect_mps_chamber_fallback` at a concrete input: the
member resolver `ctxFallback` resolves only against slices containing a
second-chamber row, the document is first-chamber, and the following
utterance is attributed `Q2`. -/
theorem detect_mps_chamber_fallback_witness :
    detect_mps ctxFallback ⟨[], [⟨none, none, [spNote "n1" "Nils", uNode "a"]⟩], none⟩
        mpBoth [] [] mdFirst [] (some (sl "p4")) [] =
      Except.ok
        ([⟨0, none, Node.note ⟨some (sl "n1"), some strSpeaker, some (sl "Nils")⟩⟩,
          ⟨0, none, Node.u ⟨some (sl "a"), some (sl "Q2"), none, none, []⟩⟩],
         []) :=
  detect_mps_chamber_fallback ctxFallback [] none none none
    ⟨some (sl "n1"), some (sl "speaker"), some (sl "Nils")⟩
    ⟨some (sl "a"), none, none, none, []⟩ (sl "Nils") mpBoth [] [] mdFirst
    (sl "Första kammaren") [] (some (sl "p4")) [] (sl "Nils") (sl "Q2")
    (by decide) rfl rfl rfl rfl rfl rfl (by decide) rfl

/-! ## String lemmas for the boundary analysis -/

/-- `strColon` is the one-character string. -/
theorem strColon_eq : strColon = [':'] := rfl

/-- The empty string occurs in every string. -/
theorem isSubstr_nil (s : Str) : isSubstr [] s = true := by
  cases s <;> simp [isSubstr, startsW]

/-- Occurrence agrees with the first-occurrence search. -/
theorem isSubstr_eq_isSome (sub s : Str) :
    isSubstr sub s = (indexOf? s sub).isSome := by
  induction s with
  | nil => by_cases h : sub.isEmpty <;> simp [isSubstr, indexOf?, h]
  | cons c rest ih =>
    simp only [isSubstr, indexOf?]
    by_cases h : startsW (c :: rest) sub = true
    · simp [h]
    · simp [h, ih]

/-- A prefix stays a prefix under extension. -/
theorem startsW_append_ext (s tail p : Str) (h : startsW s p = true) :
    startsW (s ++ tail) p = true := by
  induction p generalizing s with
  | nil => simp [startsW]
  | cons d p ih =>
    cases s with
    | nil => simp [startsW] at h
    | cons c s =>
      simp [startsW] at h ⊢
      exact ⟨h.1, ih s h.2⟩

/-- A prefix witnesses a decomposition. -/
theorem startsW_exists_append (s p : Str) (h : startsW s p = true) :
    ∃ tail, s = p ++ tail := by
  induction p generalizing s with
  | nil => exact ⟨s, rfl⟩
  | cons d p ih =>
    cases s with
    | nil => simp [startsW] at h
    | cons c s =>
      simp [startsW] at h
      obtain ⟨tail, ht⟩ := ih s h.2
      exact ⟨tail, by simp [h.1, ht]⟩

/-- Occurrence is preserved under extension on the right. -/
theorem isSubstr_append_right (sub m tail : Str) (h : isSubstr sub m = true) :
    isSubstr sub (m ++ tail) = true := by
  induction m with
  | nil =>
    simp [isSubstr] at h
    simp [h, isSubstr_nil]
  | cons c m ih =>
    simp only [isSubstr, Bool.or_eq_true] at h ⊢
    cases h with
    | inl h => exact Or.inl (startsW_append_ext _ _ _ h)
    | inr h => exact Or.inr (ih h)

/-- Occurrence inside a prefix gives occurrence in the whole. -/
theorem isSubstr_of_startsW (s m sub : Str) (hs : startsW s m = true)
    (h : isSubstr sub m = true) : isSubstr sub s = true := by
  obtain ⟨tail, rfl⟩ := startsW_exists_append s m hs
  exact isSubstr_append_right sub m tail h

/-- The first-occurrence position is a genuine occurrence. -/
theorem indexOf?_startsW (s sub : Str) (k : Nat) (h : indexOf? s sub = some k) :
    startsW (s.drop k) sub = true := by
  induction s generalizing k with
  | nil =>
    by_cases he : sub.isEmpty
    · simp [indexOf?, he] at h
      subst h
      have : sub = [] := by cases sub <;> simp_all [List.isEmpty]
      simp [this, startsW]
    · simp [indexOf?, he] at h
  | cons c rest ih =>
    simp only [indexOf?] at h
    by_cases hst : startsW (c :: rest) sub = true
    · simp [hst] at h
      subst h
      simpa using hst
    · simp [hst] at h
      obtain ⟨k', hk', rfl⟩ := h
      simpa using ih k' hk'

/-- Occurrence in a suffix gives occurrence in the whole. -/
theorem isSubstr_drop (sub s : Str) (k : Nat)
    (h : isSubstr sub (s.drop k) = true) : isSubstr sub s = true := by
  induction s generalizing k with
  | nil => simpa using h
  | cons c rest ih =>
    cases k with
    | zero => simpa using h
    | succ k =>
      have hr := ih k (by simpa using h)
      simp only [isSubstr, Bool.or_eq_true]
      exact Or.inr hr

/-- Occurrence inside an occurring span lifts to the containing string. -/
theorem isSubstr_trans_indexOf (t matched sub : Str) (k : Nat)
    (hk : indexOf? t matched = some k) (h : isSubstr sub matched = true) :
    isSubstr sub t = true :=
  isSubstr_drop sub t k
    (isSubstr_of_startsW _ _ _ (indexOf?_startsW t matched k hk) h)

/-- A character of a string occurs in it as a one-character substring. -/
theorem mem_isSubstr (c : Char) (s : Str) (h : c ∈ s) :
    isSubstr [c] s = true := by
  induction s with
  | nil => cases h
  | cons d rest ih =>
    simp only [isSubstr, Bool.or_eq_true]
    rcases List.mem_cons.mp h with h | h
    · subst h
      exact Or.inl (by simp [startsW])
    · exact Or.inr (ih h)

/-- A string ending in a colon contains one. -/
theorem getLast_colon_isSubstr (m : Str) (h : m.getLast? = some ':') :
    isSubstr strColon m = true := by
  rw [strColon_eq]
  exact mem_isSubstr ':' m (List.mem_of_getLast?_eq_some h)

/-- A string containing a non-empty pattern is non-empty. -/
theorem indexOf?_ne_nil (t sub : Str) (k : Nat) (h : indexOf? t sub = some k)
    (hne : sub ≠ []) : t ≠ [] := by
  intro ht
  subst ht
  have : sub.isEmpty = true := by
    by_cases he : sub.isEmpty <;> simp [indexOf?, he] at h
    · exact he
  cases sub <;> simp_all [List.isEmpty]

/-! ## Boundary lemmas for the note case of the segmenter -/

/-- Boundary when the matched span contains a colon: the position of the
*first* colon of the span, offset by the span's first occurrence. -/
theorem noteBoundary_colon_in_match (t matched : Str) (k i1 : Nat) (lc : Char)
    (hlast : matched.getLast? = some lc)
    (hk : indexOf? t matched = some k)
    (hcol : indexOf? matched strColon = some i1) :
    noteBoundary t matched = Except.ok (some (i1 + k)) := by
  have hsub : isSubstr strColon matched = true := by
    rw [isSubstr_eq_isSome, hcol]; rfl
  have h1 : lastCharE matched = Except.ok lc := by unfold lastCharE; rw [hlast]
  have hpk : pyIndexE t matched = Except.ok k := by unfold pyIndexE; rw [hk]
  have hpc : pyIndexE matched strColon = Except.ok i1 := by
    unfold pyIndexE; rw [hcol]
  unfold noteBoundary
  rw [h1]
  simp [hsub, hpk, hpc]
  by_cases hq : ¬lc = ':' ∧ isSubstr strColon t = true
  · rw [if_pos hq]
  · rw [if_neg hq]

/-- Boundary when the matched span has no colon but the text does: the
position just past the matched span. -/
theorem noteBoundary_colon_after_match (t matched : Str) (k : Nat) (lc : Char)
    (hlast : matched.getLast? = some lc)
    (hk : indexOf? t matched = some k)
    (hcol : indexOf? matched strColon = none)
    (hcolt : isSubstr strColon t = true)
    (hne : matched ≠ []) :
    noteBoundary t matched = Except.ok (some (matched.length + k)) := by
  have hsub : isSubstr strColon matched = false := by
    rw [isSubstr_eq_isSome, hcol]; rfl
  have hlcne : (lc = ':') = False := by
    by_cases h : lc = ':'
    · subst h
      rw [getLast_colon_isSubstr matched hlast] at hsub
      cases hsub
    · simp [h]
  have h1 : lastCharE matched = Except.ok lc := by unfold lastCharE; rw [hlast]
  have htne : t ≠ [] := indexOf?_ne_nil t matched k hk hne
  obtain ⟨lc2, hlc2⟩ : ∃ c, t.getLast? = some c := by
    have := List.getLast?_isSome.mpr htne
    exact Option.isSome_iff_exists.mp this
  have h2 : lastCharE t = Except.ok lc2 := by unfold lastCharE; rw [hlc2]
  unfold noteBoundary
  rw [h1]
  simp [hlcne, hcolt, hsub, pyIndexE, hk, h2]

/-- Boundary when the text holds no colon at all: none located. -/
theorem noteBoundary_no_colon (t matched : Str) (k : Nat) (lc : Char)
    (hlast : matched.getLast? = some lc)
    (hk : indexOf? t matched = some k)
    (hcolt : isSubstr strColon t = false)
    (hne : matched ≠ []) :
    noteBoundary t matched = Except.ok none := by
  have hsub : isSubstr strColon matched = false := by
    by_cases h : isSubstr strColon matched = true
    · rw [isSubstr_trans_indexOf t matched strColon k hk h] at hcolt
      cases hcolt
    · simpa using h
  have h1 : lastCharE matched = Except.ok lc := by unfold lastCharE; rw [hlast]
  have htne : t ≠ [] := indexOf?_ne_nil t matched k hk hne
  obtain ⟨lc2, hlc2⟩ : ∃ c, t.getLast? = some c := by
    have := List.getLast?_isSome.mpr htne
    exact Option.isSome_iff_exists.mp this
  have h2 : lastCharE t = Except.ok lc2 := by unfold lastCharE; rw [hlc2]
  unfold noteBoundary
  rw [h1]
  simp [hcolt, hsub, h2]

/-! ## Claim C6 — amended theorem: the note-announcement split -/

/-- The emission of a reclassified note announcement for a located
boundary `ix`: text up to and including the boundary stays on the note
and the unstripped remainder becomes the first segment of a new
utterance inserted right after it — but only when the stripped remainder
is non-empty; otherwise the node is reclassified with its text intact. -/
def noteSplitNodes (nn : NoteN) (t : Str) (who : Option Str) (ix : Nat) :
    List Node :=
  if 0 < (stripS (t.drop (ix + 1))).length then
    [Node.note ⟨nn.id, some strSpeaker, some (t.take (ix + 1))⟩,
     Node.u ⟨none, some (who.getD strUnknown), none, none,
       [⟨none, some (t.drop (ix + 1))⟩]⟩]
  else [Node.note ⟨nn.id, some strSpeaker, some t⟩]

/-- Claim C6 (amended): when the segmenter reclassifies a matched note as
a speaker announcement, the split boundary is the *first* colon inside
the matched span when the span contains one (not the colon closest to
the span's end); when the span has no colon but the text has one
elsewhere, the boundary is the character position immediately after the
matched span; the text up to and including the boundary stays on the
announcement and the remainder becomes the first segment of a new
utterance inserted immediately after it, except that a whitespace-only
remainder suppresses the split; and when the text holds no colon at all
the node is reclassified unsplit. -/
theorem find_introductions_note_split (fr : List FrontDiv)
    (dty dtx rtx : Option Str) (nn : NoteN) (t matched : Str)
    (who : Option Str) (pdb : PatternDb) (tbl : IntroTable) (rm : Bool)
    (k : Nat)
    (htbl : detect_introduction nn.id tbl = some ⟨matched, who⟩)
    (hty : ¬ nn.type = some strSpeaker)
    (ht : nn.text = some t)
    (hk : indexOf? t matched = some k)
    (hne : matched ≠ []) :
    (∀ i1, indexOf? matched strColon = some i1 →
      find_introductions ⟨fr, [⟨dty, dtx, [Node.note nn]⟩], rtx⟩ pdb tbl rm =
        Except.ok ⟨fr, [⟨dty, none, noteSplitNodes nn t who (i1 + k)⟩], none⟩) ∧
    (indexOf? matched strColon = none → isSubstr strColon t = true →
      find_introductions ⟨fr, [⟨dty, dtx, [Node.note nn]⟩], rtx⟩ pdb tbl rm =
        Except.ok ⟨fr, [⟨dty, none, noteSplitNodes nn t who (matched.length + k)⟩],
          none⟩) ∧
    (isSubstr strColon t = false →
      find_introductions ⟨fr, [⟨dty, dtx, [Node.note nn]⟩], rtx⟩ pdb tbl rm =
        Except.ok ⟨fr, [⟨dty, none, [Node.note ⟨nn.id, some strSpeaker, some t⟩]⟩],
          none⟩) := by
  obtain ⟨lc, hlast⟩ : ∃ c, matched.getLast? = some c :=
    Option.isSome_iff_exists.mp (List.getLast?_isSome.mpr hne)
  obtain ⟨nid, nty, ntext⟩ := nn
  dsimp only at htbl hty ht ⊢
  subst ht
  refine ⟨?_, ?_, ?_⟩
  · intro i1 hcol
    have hbd := noteBoundary_colon_in_match t matched k i1 lc hlast hk hcol
    by_cases hr : 0 < (stripS (t.drop (i1 + k + 1))).length <;>
      simp [hr, find_introductions, mapME, processDiv, processNode, processNote,
        clearsParentText, htbl, hty, hbd, noteSplitNodes]
  · intro hcol hcolt
    have hbd := noteBoundary_colon_after_match t matched k lc hlast hk hcol hcolt hne
    by_cases hr : 0 < (stripS (t.drop (matched.length + k + 1))).length <;>
      simp [hr, find_introductions, mapME, processDiv, processNode, processNote,
        clearsParentText, htbl, hty, hbd, noteSplitNodes]
  · intro hcolt
    have hbd := noteBoundary_no_colon t matched k lc hlast hk hcolt hne
    simp [find_introductions, mapME, processDiv, processNode, processNote,
      clearsParentText, htbl, hty, hbd]

/-- Witness for `find_introductions_note_split`: the colon-in-match case
at a concrete input, with the hypotheses discharged by evaluation. -/
theorem find_introductions_note_split_witness :
    find_introductions
        ⟨[], [⟨none, none, [Node.note ⟨some (sl "m1"), none, some (sl "AB: CD")⟩]⟩], none⟩
        [] [(sl "m1", ⟨sl "AB:", some (sl "w9")⟩)] false =
      Except.ok
        ⟨[], [⟨none, none,
          [Node.note ⟨some (sl "m1"), some strSpeaker, some (sl "AB:")⟩,
           Node.u ⟨none, some (sl "w9"), none, none, [⟨none, some (sl " CD")⟩]⟩]⟩],
         none⟩ :=
  (find_introductions_note_split [] none none none
      ⟨some (sl "m1"), none, some (sl "AB: CD")⟩ (sl "AB: CD") (sl "AB:")
      (some (sl "w9")) [] [(sl "m1", ⟨sl "AB:", some (sl "w9")⟩)] false 0
      rfl (by decide) rfl rfl (by decide)).1 2 rfl

/-! ## Claim C9 — idempotence of the Introduction Segmenter -/

/-- A segment the second pass leaves alone: no string text, or its
identifier is not a confirmed introduction. -/
def stableSeg (tbl : IntroTable) (s : Seg) : Prop :=
  s.text = none ∨ detect_introduction s.id tbl = none

/-- A node the second pass leaves alone. -/
def stableNode (tbl : IntroTable) (rm : Bool) : Node → Prop
  | Node.u un => ∀ s ∈ un.segs, stableSeg tbl s
  | Node.note nn =>
    nn.text = none ∨
      (match detect_introduction nn.id tbl with
       | some _ => nn.type = some strSpeaker
       | none => ¬ (nn.type = some strSpeaker ∧ rm = true))
  | Node.pb _ => True

/-- Scanning stable segments only accumulates them on the original
utterance. -/
theorem foldSegs_stable (tbl : IntroTable) (segs : List Seg) (kept : List Seg)
    (h : ∀ s ∈ segs, stableSeg tbl s) :
    foldSegs tbl segs ⟨kept, [], none⟩ = Except.ok ⟨kept ++ segs, [], none⟩ := by
  induction segs generalizing kept with
  | nil => simp [foldSegs]
  | cons s rest ih =>
    have hs := h s (List.mem_cons_self s rest)
    have hr : ∀ x ∈ rest, stableSeg tbl x :=
      fun x hx => h x (List.mem_cons_of_mem s hx)
    cases hs with
    | inl htext =>
      rw [foldSegs, segStep]
      simp only [htext]
      rw [ih (kept ++ [s]) hr]
      simp
    | inr hdet =>
      cases hstext : s.text with
      | none =>
        rw [foldSegs, segStep]
        simp only [hstext]
        rw [ih (kept ++ [s]) hr]
        simp
      | some t =>
        rw [foldSegs, segStep]
        simp only [hstext, hdet]
        rw [ih (kept ++ [s]) hr]
        simp

/-- A stable node is reproduced verbatim by the per-node pass. -/
theorem processNode_stable (tbl : IntroTable) (rm : Bool) (n : Node)
    (h : stableNode tbl rm n) : processNode tbl rm n = Except.ok [n] := by
  cases n with
  | u un =>
    have hf := foldSegs_stable tbl un.segs [] h
    simp [processNode, hf, flushCur]
  | note nn =>
    cases htext : nn.text with
    | none => simp [processNode, processNote, htext]
    | some t =>
      simp only [stableNode, htext] at h
      rcases h with h | h
      · cases h
      · cases hdet : detect_introduction nn.id tbl with
        | some intro =>
          rw [hdet] at h
          simp [processNode, processNote, htext, hdet, h]
        | none =>
          rw [hdet] at h
          have hcond : ¬ ((nn.type = some strSpeaker) ∧ rm = true) := h
          simp [processNode, processNote, htext, hdet]
          intro h1 h2
          exact absurd ⟨h1, h2⟩ hcond
  | pb pp => rfl

/-- Invariant carried by the segment fold: everything kept and everything
emitted is stable. -/
def stableFold (tbl : IntroTable) (rm : Bool) (st : SegFold) : Prop :=
  (∀ s ∈ st.kept, stableSeg tbl s) ∧
  (∀ m ∈ st.done ++ flushCur st.cur, stableNode tbl rm m)

/-- One segment step preserves the emission invariant. -/
theorem segStep_stable (tbl : IntroTable) (rm : Bool) (st st' : SegFold)
    (s : Seg) (hinv : stableFold tbl rm st)
    (h : segStep tbl st s = Except.ok st') : stableFold tbl rm st' := by
  obtain ⟨h1, h2⟩ := hinv
  cases hstext : s.text with
  | none =>
    simp only [segStep, hstext] at h
    cases h
    constructor
    · intro x hx
      rcases List.mem_append.mp hx with hx | hx
      · exact h1 x hx
      · simp at hx
        subst hx
        exact Or.inl hstext
    · exact h2
  | some t =>
    cases hdet : detect_introduction s.id tbl with
    | some intro =>
      have hemit : ∀ (uu : Utt), (∀ x ∈ uu.segs, stableSeg tbl x) →
          ∀ (nn : NoteN), nn.type = some strSpeaker →
          detect_introduction nn.id tbl = some intro →
          stableFold tbl rm ⟨st.kept, st.done ++ flushCur st.cur, some (nn, uu)⟩ := by
        intro uu huu nn hnty hndet
        refine ⟨h1, ?_⟩
        intro m hm
        rcases List.mem_append.mp hm with hm | hm
        · exact h2 m hm
        · simp [flushCur] at hm
          rcases hm with rfl | rfl
          · simp only [stableNode]
            right
            rw [hndet]
            exact hnty
          · exact huu
      cases hbd : segBoundary t intro.txt with
      | error e =>
        simp only [segStep, hstext, hdet, hbd] at h
        cases h
      | ok ix =>
        cases ix with
        | some i =>
          simp only [segStep, hstext, hdet, hbd] at h
          cases h
          exact hemit _
            (by
              intro x hx
              simp at hx
              subst hx
              exact Or.inr rfl)
            ⟨s.id, some strSpeaker, some (t.take (i + 1))⟩ rfl (by simpa using hdet)
        | none =>
          simp only [segStep, hstext, hdet, hbd] at h
          cases h
          exact hemit _ (by intro x hx; cases hx)
            ⟨s.id, some strSpeaker, some t⟩ rfl (by simpa using hdet)
    | none =>
      cases hcur : st.cur with
      | none =>
        simp only [segStep, hstext, hdet, hcur] at h
        cases h
        rw [hcur] at h2
        refine ⟨?_, h2⟩
        intro x hx
        rcases List.mem_append.mp hx with hx | hx
        · exact h1 x hx
        · simp at hx
          subst hx
          exact Or.inr hdet
      | some pair =>
        obtain ⟨pn, pu⟩ := pair
        simp only [segStep, hstext, hdet, hcur] at h
        cases h
        rw [hcur] at h2
        refine ⟨h1, ?_⟩
        intro m hm
        rcases List.mem_append.mp hm with hm | hm
        · exact h2 m (List.mem_append.mpr (Or.inl hm))
        · simp [flushCur] at hm
          rcases hm with rfl | rfl
          · exact h2 (Node.note pn) (by simp [flushCur])
          · have hu := h2 (Node.u pu) (by simp [flushCur])
            simp only [stableNode] at hu ⊢
            intro x hx
            rcases List.mem_append.mp hx with hx | hx
            · exact hu x hx
            · simp at hx
              subst hx
              exact Or.inr hdet

/-- The segment fold preserves the emission invariant. -/
theorem foldSegs_stableFold (tbl : IntroTable) (rm : Bool) (segs : List Seg)
    (st fin : SegFold) (hinv : stableFold tbl rm st)
    (h : foldSegs tbl segs st = Except.ok fin) : stableFold tbl rm fin := by
  induction segs generalizing st with
  | nil =>
    rw [foldSegs] at h
    cases h
    exact hinv
  | cons s rest ih =>
    rw [foldSegs] at h
    cases hs : segStep tbl st s with
    | error e => rw [hs] at h; cases h
    | ok st1 =>
      rw [hs] at h
      exact ih st1 (segStep_stable tbl rm st st1 s hinv hs) h

/-- Every node emitted by the per-node pass is stable. -/
theorem processNode_stable_out (tbl : IntroTable) (rm : Bool) (n : Node)
    (out : List Node) (h : processNode tbl rm n = Except.ok out) :
    ∀ m ∈ out, stableNode tbl rm m := by
  cases n with
  | u un =>
    rw [processNode] at h
    cases hf : foldSegs tbl un.segs ⟨[], [], none⟩ with
    | error e => rw [hf] at h; cases h
    | ok fin =>
      rw [hf] at h
      cases h
      have hinv := foldSegs_stableFold tbl rm un.segs ⟨[], [], none⟩ fin
        (by constructor <;> simp [flushCur]) hf
      intro m hm
      rcases List.mem_cons.mp hm with rfl | hm
      · exact hinv.1
      · exact hinv.2 m hm
  | note nn =>
    cases htext : nn.text with
    | none =>
      simp only [processNode, processNote, htext] at h
      cases h
      intro m hm
      simp at hm
      subst hm
      simp [stableNode, htext]
    | some t =>
      cases hdet : detect_introduction nn.id tbl with
      | some intro =>
        by_cases hty : nn.type = some strSpeaker
        · simp only [processNode, processNote, htext, hdet, hty, if_pos] at h
          simp at h
          subst h
          intro m hm
          simp at hm
          subst hm
          simp only [stableNode]
          right
          rw [hdet]
          exact hty
        · simp only [processNode, processNote, htext, hdet] at h
          rw [if_neg hty] at h
          cases hbd : noteBoundary t intro.txt with
          | error e => rw [hbd] at h; cases h
          | ok ix =>
            simp only [hbd] at h
            have hnote : ∀ (tx : Option Str),
                stableNode tbl rm (Node.note ⟨nn.id, some strSpeaker, tx⟩) := by
              intro tx
              simp only [stableNode]
              cases tx with
              | none => exact Or.inl rfl
              | some _ => simp [hdet]
            cases ix with
            | some i =>
              replace h : (if (stripS (t.drop (i + 1))).length > 0 then
                  Except.ok [Node.note ⟨nn.id, some strSpeaker, some (t.take (i + 1))⟩,
                    Node.u ⟨none, some (intro.who.getD strUnknown), none, none,
                      [⟨none, some (t.drop (i + 1))⟩]⟩]
                else Except.ok [Node.note ⟨nn.id, some strSpeaker, some t⟩]) =
                  Except.ok out := h
              by_cases hr : (stripS (t.drop (i + 1))).length > 0
              · rw [if_pos hr] at h
                cases h
                intro m hm
                simp at hm
                rcases hm with rfl | rfl
                · exact hnote _
                · simp only [stableNode]
                  intro x hx
                  simp at hx
                  subst hx
                  exact Or.inr rfl
              · rw [if_neg hr] at h
                cases h
                intro m hm
                simp at hm
                subst hm
                exact hnote _
            | none =>
              cases h
              intro m hm
              simp at hm
              subst hm
              exact hnote _
      | none =>
        by_cases hc : nn.type = some strSpeaker ∧ rm = true
        · have hcb : (nn.type = some strSpeaker && rm) = true := by
            simp [hc.1, hc.2]
          simp only [processNode, processNote, htext, hdet, hcb, if_pos] at h
          simp at h
          subst h
          intro m hm
          simp at hm
          subst hm
          simp only [stableNode]
          right
          rw [hdet]
          simp
        · have hcb : ¬ ((nn.type = some strSpeaker && rm) = true) := by
            simp only [Bool.and_eq_true, decide_eq_true_eq]
            intro hh
            exact hc ⟨by simpa using hh.1, hh.2⟩
          simp only [processNode, processNote, htext, hdet] at h
          rw [if_neg hcb] at h
          cases h
          intro m hm
          simp at hm
          subst hm
          simp only [stableNode]
          right
          rw [hdet]
          exact hc
  | pb pp =>
    rw [processNode] at h
    cases h
    intro m hm
    simp at hm
    subst hm
    trivial

/-- If `f` reproduces every element, `mapME` reproduces the list. -/
theorem mapME_id_of (f : α → Except PyErr α) (l : List α)
    (h : ∀ x ∈ l, f x = Except.ok x) : mapME f l = Except.ok l := by
  induction l with
  | nil => rfl
  | cons x rest ih =>
    rw [mapME, h x (List.mem_cons_self x rest),
      ih (fun y hy => h y (List.mem_cons_of_mem x hy))]

/-- If `g` wraps every element into its singleton, `mapME` produces the
singleton image of the list. -/
theorem mapME_singleton_of (g : α → Except PyErr (List α)) (l : List α)
    (h : ∀ x ∈ l, g x = Except.ok [x]) :
    mapME g l = Except.ok (l.map (fun x => [x])) := by
  induction l with
  | nil => rfl
  | cons x rest ih =>
    rw [mapME, h x (List.mem_cons_self x rest),
      ih (fun y hy => h y (List.mem_cons_of_mem x hy))]
    rfl

/-- Flattening the singleton image gives the list back. -/
theorem flatten_map_singleton (l : List α) :
    (l.map (fun x => [x])).flatten = l := by
  induction l with
  | nil => rfl
  | cons x rest ih => simp [ih]

/-- Membership inversion for `mapME`. -/
theorem mapME_mem (f : α → Except PyErr β) (l : List α) (l' : List β)
    (h : mapME f l = Except.ok l') :
    ∀ y ∈ l', ∃ x ∈ l, f x = Except.ok y := by
  induction l generalizing l' with
  | nil =>
    cases h
    intro y hy
    cases hy
  | cons x rest ih =>
    rw [mapME] at h
    cases hx : f x with
    | error e => rw [hx] at h; cases h
    | ok y0 =>
      rw [hx] at h
      cases hrest : mapME f rest with
      | error e => rw [hrest] at h; cases h
      | ok ys =>
        rw [hrest] at h
        cases h
        intro y hy
        rcases List.mem_cons.mp hy with rfl | hy
        · exact ⟨x, List.mem_cons_self x rest, hx⟩
        · obtain ⟨x', hx', hy'⟩ := ih ys hrest y hy
          exact ⟨x', List.mem_cons_of_mem x hx', hy'⟩

/-- The per-node pass preserves whether a node nulls its division's text. -/
theorem processNode_clears (tbl : IntroTable) (rm : Bool) (n : Node)
    (out : List Node) (h : processNode tbl rm n = Except.ok out) :
    out.any clearsParentText = clearsParentText n := by
  cases n with
  | u un =>
    rw [processNode] at h
    cases hf : foldSegs tbl un.segs ⟨[], [], none⟩ with
    | error e => rw [hf] at h; cases h
    | ok fin =>
      rw [hf] at h
      cases h
      simp [clearsParentText]
  | note nn =>
    cases htext : nn.text with
    | none =>
      simp only [processNode, processNote, htext] at h
      cases h
      simp [clearsParentText]
    | some t =>
      cases hdet : detect_introduction nn.id tbl with
      | some intro =>
        by_cases hty : nn.type = some strSpeaker
        · simp only [processNode, processNote, htext, hdet, hty, if_pos] at h
          simp at h
          subst h
          simp [clearsParentText]
        · simp only [processNode, processNote, htext, hdet] at h
          rw [if_neg hty] at h
          cases hbd : noteBoundary t intro.txt with
          | error e => rw [hbd] at h; cases h
          | ok ix =>
            simp only [hbd] at h
            cases ix with
            | some i =>
              replace h : (if (stripS (t.drop (i + 1))).length > 0 then
                  Except.ok [Node.note ⟨nn.id, some strSpeaker, some (t.take (i + 1))⟩,
                    Node.u ⟨none, some (intro.who.getD strUnknown), none, none,
                      [⟨none, some (t.drop (i + 1))⟩]⟩]
                else Except.ok [Node.note ⟨nn.id, some strSpeaker, some t⟩]) =
                  Except.ok out := h
              by_cases hr : (stripS (t.drop (i + 1))).length > 0
              · rw [if_pos hr] at h
                cases h
                simp [clearsParentText]
              · rw [if_neg hr] at h
                cases h
                simp [clearsParentText]
            | none =>
              cases h
              simp [clearsParentText]
      | none =>
        by_cases hc : nn.type = some strSpeaker ∧ rm = true
        · have hcb : (nn.type = some strSpeaker && rm) = true := by
            simp [hc.1, hc.2]
          simp only [processNode, processNote, htext, hdet, hcb, if_pos] at h
          simp at h
          subst h
          simp [clearsParentText]
        · have hcb : ¬ ((nn.type = some strSpeaker && rm) = true) := by
            simp only [Bool.and_eq_true, decide_eq_true_eq]
            intro hh
            exact hc ⟨by simpa using hh.1, hh.2⟩
          simp only [processNode, processNote, htext, hdet] at h
          rw [if_neg hcb] at h
          cases h
          simp [clearsParentText]
  | pb pp =>
    rw [processNode] at h
    cases h
    simp [clearsParentText]

/-- `mapME (processNode)` preserves the text-nulling condition of a
division's node list. -/
theorem mapME_processNode_clears (tbl : IntroTable) (rm : Bool)
    (ns : List Node) (ls : List (List Node))
    (h : mapME (processNode tbl rm) ns = Except.ok ls) :
    ls.flatten.any clearsParentText = ns.any clearsParentText := by
  induction ns generalizing ls with
  | nil =>
    cases h
    rfl
  | cons n rest ih =>
    rw [mapME] at h
    cases hx : processNode tbl rm n with
    | error e => rw [hx] at h; cases h
    | ok out =>
      rw [hx] at h
      cases hrest : mapME (processNode tbl rm) rest with
      | error e => rw [hrest] at h; cases h
      | ok outs =>
        rw [hrest] at h
        cases h
        simp only [List.flatten_cons, List.any_append, List.any_cons]
        rw [processNode_clears tbl rm n out hx, ih outs hrest]

/-- One division pass is idempotent on its own output. -/
theorem processDiv_idem (tbl : IntroTable) (rm : Bool) (dv dv' : BodyDiv)
    (h : processDiv tbl rm dv = Except.ok dv') :
    processDiv tbl rm dv' = Except.ok dv' := by
  rw [processDiv] at h
  cases hm : mapME (processNode tbl rm) dv.nodes with
  | error e => rw [hm] at h; cases h
  | ok ls =>
    rw [hm] at h
    cases h
    have hstable : ∀ m ∈ ls.flatten, stableNode tbl rm m := by
      intro m hm'
      obtain ⟨l', hl', hml'⟩ := List.mem_flatten.mp hm'
      obtain ⟨x, _hx, hys⟩ := mapME_mem (processNode tbl rm) dv.nodes ls hm l' hl'
      exact processNode_stable_out tbl rm x l' hys m hml'
    have hmap : mapME (processNode tbl rm) ls.flatten =
        Except.ok (ls.flatten.map (fun x => [x])) :=
      mapME_singleton_of _ _ (fun m hmm => processNode_stable tbl rm m (hstable m hmm))
    rw [processDiv]
    simp only [hmap, flatten_map_singleton]
    rw [mapME_processNode_clears tbl rm dv.nodes ls hm]
    cases hany : dv.nodes.any clearsParentText <;> simp [hany]

/-- Claim C9: running the Introduction Segmenter a second time, with the
same pattern table and confirmed-intro identifiers, on a document it has
already segmented reproduces that document exactly: no node is
reclassified and no new utterance or segment nodes are inserted. -/
theorem find_introductions_idempotent (doc doc' : Doc) (pdb : PatternDb)
    (tbl : IntroTable) (rm : Bool)
    (h : find_introductions doc pdb tbl rm = Except.ok doc') :
    find_introductions doc' pdb tbl rm = Except.ok doc' := by
  rw [find_introductions] at h
  cases hm : mapME (processDiv tbl rm) doc.divs with
  | error e => rw [hm] at h; cases h
  | ok divs =>
    rw [hm] at h
    cases h
    rw [find_introductions]
    have : mapME (processDiv tbl rm) divs = Except.ok divs := by
      apply mapME_id_of
      intro dv' hdv'
      obtain ⟨dv, _hdv, hok⟩ := mapME_mem (processDiv tbl rm) doc.divs divs hm dv' hdv'
      exact processDiv_idem tbl rm dv dv' hok
    simp [this]

/-- The concrete input document of the idempotence witness. -/
def docSegIn : Doc :=
  ⟨[], [⟨none, some (sl "x"),
    [Node.u ⟨some (sl "u0"), some (sl "w0"), none, none,
      [⟨some (sl "s0"), some (sl "before")⟩,
       ⟨some (sl "s1"), some (sl "Herr TALMANNEN: tack")⟩,
       ⟨some (sl "s2"), some (sl "after")⟩]⟩]⟩], none⟩

/-- The segmented output of the first pass over `docSegIn`. -/
def docSegOut : Doc :=
  ⟨[], [⟨none, none,
    [Node.u ⟨some (sl "u0"), some (sl "w0"), none, none,
      [⟨some (sl "s0"), some (sl "before")⟩]⟩,
     Node.note ⟨some (sl "s1"), some strSpeaker, some (sl "Herr TALMANNEN:")⟩,
     Node.u ⟨none, some (sl "tal"), none, none,
      [⟨none, some (sl " tack")⟩, ⟨some (sl "s2"), some (sl "after")⟩]⟩]⟩], none⟩

/-- The confirmed-intro table of the idempotence witness. -/
def tblSeg : IntroTable := [(sl "s1", ⟨sl "Herr TALMANNEN:", some (sl "tal")⟩)]

/-- Witness for `find_introductions_idempotent`: a concrete document
where the first pass splits a matched segment out of an utterance, and
the second pass reproduces the result verbatim. -/
theorem find_introductions_idempotent_witness :
    find_introductions docSegIn [] tblSeg true = Except.ok docSegOut ∧
      find_introductions docSegOut [] tblSeg true = Except.ok docSegOut :=
  ⟨rfl, find_introductions_idempotent docSegIn docSegOut [] tblSeg true rfl⟩

/-! ## Claims C3/C4 — the scan invariant of `detect_mps` -/

/-- Per-node facts maintained for every processed node: a processed
utterance carries a well-formed identifier, a speaker value that is
"unknown" or a resolver-produced identity (`Good`), and, when it sits in
a comment section, sentinel chain pointers and the "unknown" speaker. -/
def uNodeOk (Good : Str → Prop) (b : BNode) : Prop :=
  ∀ un, b.node = Node.u un →
    (∃ s, un.id = some s ∧ ¬ s = strDelete) ∧
    (∃ w, un.who = some w ∧ (w = strUnknown ∨ Good w)) ∧
    (b.divType = some strCommentSection →
      un.prev = some strDelete ∧ un.next = some strDelete ∧
        un.who = some strUnknown)

/-- Forward-chain fact: a real (non-sentinel) `next` pointer goes from an
ordinary-section utterance strictly forward to an ordinary-section
utterance bearing that identifier, whose `prev` points back. -/
def nextOk (acc : List BNode) : Prop :=
  ∀ (i : Nat) (b : BNode) (un : Utt) (x : Str),
    acc[i]? = some b → b.node = Node.u un → un.next = some x →
    ¬ x = strDelete →
    ¬ b.divType = some strCommentSection ∧
    ∃ j b2 un2, i < j ∧ acc[j]? = some b2 ∧ b2.node = Node.u un2 ∧
      ¬ b2.divType = some strCommentSection ∧ un2.id = some x ∧ un2.prev = un.id

/-- Backward-chain fact: a real `prev` pointer comes from a strictly
earlier ordinary-section utterance whose `next` points forward to it. -/
def prevOk (acc : List BNode) : Prop :=
  ∀ (j : Nat) (b2 : BNode) (un2 : Utt) (y : Str),
    acc[j]? = some b2 → b2.node = Node.u un2 → un2.prev = some y →
    ¬ y = strDelete →
    ¬ b2.divType = some strCommentSection ∧
    ∃ i b un, i < j ∧ acc[i]? = some b ∧ b.node = Node.u un ∧
      ¬ b.divType = some strCommentSection ∧ un.id = some y ∧ un.next = un2.id

/-- The full invariant of the scan state. -/
def stInv (Good : Str → Prop) (st : MSt) : Prop :=
  (∀ b ∈ st.acc, uNodeOk Good b) ∧
  nextOk st.acc ∧ prevOk st.acc ∧
  (st.cs = none ∨ ∃ w, st.cs = some w ∧ Good w) ∧
  (∀ p : Nat, st.prevu = some p →
    ∃ (b : BNode) (un : Utt), st.acc[p]? = some b ∧ b.node = Node.u un ∧
      ¬ b.divType = some strCommentSection ∧ un.next = some strDelete)

/-- Identifier discipline required of the input utterances. -/
def uIdOk (b : BNode) : Prop :=
  ∀ un, b.node = Node.u un → ∃ s, un.id = some s ∧ ¬ s = strDelete

/-- All identities produced by the resolver strategies satisfy `Good`. -/
def cfgGood (Good : Str → Prop) (cfg : DCfg) : Prop :=
  (∀ t db d w, cfg.ctx.detect_minister t db d = Except.ok (some w) → Good w) ∧
  (∀ t db md w, cfg.ctx.detect_speaker t db md = Except.ok (some w) → Good w) ∧
  (∀ d db pm f w, cfg.ctx.detect_mp d db pm f = Except.ok (some w) → Good w)

/-- Case split for an index into a one-element extension. -/
theorem getElem?_append_cases (l : List α) (e : α) (i : Nat) (x : α)
    (h : (l ++ [e])[i]? = some x) :
    (i < l.length ∧ l[i]? = some x) ∨ (i = l.length ∧ x = e) := by
  by_cases hi : i < l.length
  · left
    refine ⟨hi, ?_⟩
    rw [List.getElem?_append_left hi] at h
    exact h
  · right
    have hle : l.length ≤ i := Nat.le_of_not_lt hi
    have hlt : i < l.length + 1 := by
      by_contra hge
      have : (l ++ [e]).length ≤ i := by
        simpa using Nat.le_of_not_lt hge
      rw [List.getElem?_eq_none this] at h
      cases h
    have heq : i = l.length := Nat.le_antisymm (Nat.lt_succ_iff.mp hlt) hle
    subst heq
    rw [List.getElem?_append_right (Nat.le_refl _)] at h
    simp at h
    exact ⟨rfl, h.symm⟩

/-- An index yielding a value is in range. -/
theorem getElem?_lt_len (l : List α) (i : Nat) (x : α) (h : l[i]? = some x) :
    i < l.length := by
  by_contra hge
  rw [List.getElem?_eq_none (Nat.le_of_not_lt hge)] at h
  cases h

/-- `nextOk` survives appending a node with no live `next` pointer. -/
theorem nextOk_append (acc : List BNode) (e : BNode) (h : nextOk acc)
    (he : ∀ un x, e.node = Node.u un → un.next = some x → x = strDelete) :
    nextOk (acc ++ [e]) := by
  intro i b un x hget hu hnx hxne
  rcases getElem?_append_cases acc e i b hget with ⟨hi, hget'⟩ | ⟨rfl, rfl⟩
  · obtain ⟨hord, j, b2, un2, hij, hj, hu2, hord2, hid2, hprev2⟩ :=
      h i b un x hget' hu hnx hxne
    have hjlt : j < acc.length := getElem?_lt_len acc j b2 hj
    exact ⟨hord, j, b2, un2, hij, by rw [List.getElem?_append_left hjlt]; exact hj,
      hu2, hord2, hid2, hprev2⟩
  · exact absurd (he un x hu hnx) hxne

/-- `prevOk` survives appending a node with no live `prev` pointer. -/
theorem prevOk_append (acc : List BNode) (e : BNode) (h : prevOk acc)
    (he : ∀ un y, e.node = Node.u un → un.prev = some y → y = strDelete) :
    prevOk (acc ++ [e]) := by
  intro j b2 un2 y hget hu hpv hyne
  rcases getElem?_append_cases acc e j b2 hget with ⟨hj, hget'⟩ | ⟨rfl, rfl⟩
  · obtain ⟨hord, i, b, un, hij, hi, hu1, hord1, hid1, hnx1⟩ :=
      h j b2 un2 y hget' hu hpv hyne
    have hilt : i < acc.length := getElem?_lt_len acc i b hi
    exact ⟨hord, i, b, un, hij, by rw [List.getElem?_append_left hilt]; exact hi,
      hu1, hord1, hid1, hnx1⟩
  · exact absurd (he un2 y hu hpv) hyne

/-- `uNodeOk` membership survives appending an ok node. -/
theorem uNodeOk_append (Good : Str → Prop) (acc : List BNode) (e : BNode)
    (h : ∀ b ∈ acc, uNodeOk Good b) (he : uNodeOk Good e) :
    ∀ b ∈ acc ++ [e], uNodeOk Good b := by
  intro b hb
  rcases List.mem_append.mp hb with hb | hb
  · exact h b hb
  · simp at hb
    subst hb
    exact he

/-- A resolved identity returned by the cascade is resolver-produced. -/
theorem resolveIntro_good (Good : Str → Prop) (cfg : DCfg) (t : Str) (w : Str)
    (hcfg : cfgGood Good cfg)
    (h : resolveIntro cfg t = Except.ok (some w)) : Good w := by
  unfold resolveIntro at h
  cases hd : (parsedDict cfg t).other with
  | some o =>
    simp only [hd] at h
    by_cases h1 : (isSubstr strStatsrad (lowerS o) || isSubstr strMinister (lowerS o)) = true
    · rw [if_pos h1] at h
      exact hcfg.1 _ _ _ _ h
    · rw [if_neg h1] at h
      by_cases h2 : isSubstr strTalman (lowerS o) = true
      · rw [if_pos h2] at h
        exact hcfg.2.1 _ _ _ _ h
      · rw [if_neg h2] at h
        cases h
  | none =>
    simp only [hd] at h
    cases hn : (parsedDict cfg t).name with
    | none =>
      simp only [hn] at h
      cases h
    | some nm =>
      simp only [hn] at h
      cases hmp : cfg.ctx.detect_mp (parsedDict cfg t) cfg.mp_db cfg.party_map
          cfg.scanned with
      | error e =>
        simp only [hmp] at h
        cases h
      | ok c1 =>
        simp only [hmp] at h
        cases c1 with
        | some x =>
          cases h
          exact hcfg.2.2 _ _ _ _ _ hmp
        | none =>
          by_cases hlen : cfg.mp_db_secondary.length > 0
          · rw [if_pos hlen] at h
            exact hcfg.2.2 _ _ _ _ _ h
          · rw [if_neg hlen] at h
            cases h

/-- `patchNext` is a `List.set` once the target is known to be an
utterance. -/
theorem patchNext_eq (acc : List BNode) (p : Nat) (eid : Str) (b : BNode)
    (un : Utt) (hp : acc[p]? = some b) (hu : b.node = Node.u un) :
    patchNext acc p eid =
      acc.set p ⟨b.divIx, b.divType, Node.u { un with next := some eid }⟩ := by
  unfold patchNext
  simp only [hp, hu]

/-- The chaining step preserves all three list invariants: patching the
pending utterance's `next` to the new utterance's identifier and
appending the new utterance with its `prev` set back. -/
theorem chain_append_inv (Good : Str → Prop) (acc : List BNode) (p : Nat)
    (bp : BNode) (unp : Utt) (pid eid : Str) (ix : Nat) (dt : Option Str)
    (un1 : Utt)
    (hUOk : ∀ b ∈ acc, uNodeOk Good b)
    (hnext : nextOk acc) (hprev : prevOk acc)
    (hp : acc[p]? = some bp) (hpu : bp.node = Node.u unp)
    (hpord : ¬ bp.divType = some strCommentSection)
    (hpnext : unp.next = some strDelete)
    (hpid : unp.id = some pid)
    (heid : un1.id = some eid) (heidne : ¬ eid = strDelete)
    (hdt : ¬ dt = some strCommentSection)
    (h1next : un1.next = some strDelete)
    (hwho : ∃ w, un1.who = some w ∧ (w = strUnknown ∨ Good w)) :
    (∀ b ∈ acc.set p ⟨bp.divIx, bp.divType, Node.u { unp with next := some eid }⟩ ++
        [⟨ix, dt, Node.u { un1 with prev := some pid }⟩], uNodeOk Good b) ∧
    nextOk (acc.set p ⟨bp.divIx, bp.divType, Node.u { unp with next := some eid }⟩ ++
        [⟨ix, dt, Node.u { un1 with prev := some pid }⟩]) ∧
    prevOk (acc.set p ⟨bp.divIx, bp.divType, Node.u { unp with next := some eid }⟩ ++
        [⟨ix, dt, Node.u { un1 with prev := some pid }⟩]) := by
  have hplt : p < acc.length := getElem?_lt_len acc p bp hp
  have hLlen : (acc.set p ⟨bp.divIx, bp.divType,
      Node.u { unp with next := some eid }⟩).length = acc.length := by
    simp
  have hLp : (acc.set p ⟨bp.divIx, bp.divType,
      Node.u { unp with next := some eid }⟩)[p]? =
      some ⟨bp.divIx, bp.divType, Node.u { unp with next := some eid }⟩ :=
    List.getElem?_set_self (by simpa using hplt)
  have hLne : ∀ i, i ≠ p →
      (acc.set p ⟨bp.divIx, bp.divType,
        Node.u { unp with next := some eid }⟩)[i]? = acc[i]? := by
    intro i hip
    exact List.getElem?_set_ne (fun hq => hip hq.symm)
  have hLapp : ∀ i, i < acc.length →
      (acc.set p ⟨bp.divIx, bp.divType, Node.u { unp with next := some eid }⟩ ++
        [⟨ix, dt, Node.u { un1 with prev := some pid }⟩])[i]? =
      (acc.set p ⟨bp.divIx, bp.divType, Node.u { unp with next := some eid }⟩)[i]? := by
    intro i hi
    exact List.getElem?_append_left (by simpa using hi)
  have hLlast : (acc.set p ⟨bp.divIx, bp.divType,
      Node.u { unp with next := some eid }⟩ ++
      [⟨ix, dt, Node.u { un1 with prev := some pid }⟩])[acc.length]? =
      some ⟨ix, dt, Node.u { un1 with prev := some pid }⟩ := by
    rw [show acc.length = (acc.set p ⟨bp.divIx, bp.divType,
      Node.u { unp with next := some eid }⟩).length from hLlen.symm]
    exact List.getElem?_concat_length _ _
  have hpidne : ¬ pid = strDelete := by
    obtain ⟨s, hs, hsne⟩ := (hUOk bp (List.getElem?_mem hp) unp hpu).1
    rw [hpid] at hs
    cases hs
    exact hsne
  refine ⟨?_, ?_, ?_⟩
  · intro b hb
    rcases List.mem_append.mp hb with hb | hb
    · rcases List.mem_or_eq_of_mem_set hb with hb | rfl
      · exact hUOk b hb
      · intro un hu
        cases hu
        obtain ⟨hid', hwho', _⟩ := hUOk bp (List.getElem?_mem hp) unp hpu
        exact ⟨hid', hwho', fun hc => absurd hc hpord⟩
    · simp at hb
      subst hb
      intro un hu
      cases hu
      exact ⟨⟨eid, heid, heidne⟩, hwho, fun hc => absurd hc hdt⟩
  · intro i b un x hget hu hnx hxne
    rcases getElem?_append_cases _ _ i b hget with ⟨hi, hget'⟩ | ⟨hi, rfl⟩
    · rw [hLlen] at hi
      by_cases hip : i = p
      · rw [hip, hLp] at hget'
        cases hget'
        cases hu
        rw [show ({ unp with next := some eid } : Utt).next = some eid from rfl] at hnx
        cases hnx
        refine ⟨hpord, acc.length, ⟨ix, dt, Node.u { un1 with prev := some pid }⟩,
          { un1 with prev := some pid }, by rw [hip]; exact hplt, hLlast, rfl, hdt,
          heid, ?_⟩
        rw [show ({ unp with next := some eid } : Utt).id = unp.id from rfl, hpid]
      · rw [hLne i hip] at hget'
        obtain ⟨hord, j, b2, un2, hij, hjget, hju, hord2, hid2, hprev2⟩ :=
          hnext i b un x hget' hu hnx hxne
        have hjlt : j < acc.length := getElem?_lt_len acc j b2 hjget
        by_cases hjp : j = p
        · rw [hjp, hp] at hjget
          cases hjget
          rw [hpu] at hju
          cases hju
          refine ⟨hord, j, ⟨bp.divIx, bp.divType, Node.u { unp with next := some eid }⟩,
            { unp with next := some eid }, hij, ?_, rfl, hpord, hid2, hprev2⟩
          rw [hjp, hLapp p hplt]
          exact hLp
        · refine ⟨hord, j, b2, un2, hij, ?_, hju, hord2, hid2, hprev2⟩
          rw [hLapp j hjlt, hLne j hjp]
          exact hjget
    · rw [hLlen] at hi
      cases hu
      rw [show ({ un1 with prev := some pid } : Utt).next = un1.next from rfl,
        h1next] at hnx
      cases hnx
      exact absurd rfl hxne
  · intro j b2 un2 y hget hu hpv hyne
    rcases getElem?_append_cases _ _ j b2 hget with ⟨hj, hget'⟩ | ⟨hj, rfl⟩
    · rw [hLlen] at hj
      by_cases hjp : j = p
      · rw [hjp, hLp] at hget'
        cases hget'
        cases hu
        rw [show ({ unp with next := some eid } : Utt).prev = unp.prev from rfl] at hpv
        obtain ⟨hord2, i, b, un, hij, higet, hiu, hord1, hid1, hnx1⟩ :=
          hprev p bp unp y hp hpu hpv hyne
        have hilt : i < acc.length := getElem?_lt_len acc i b higet
        have hipne : i ≠ p := Nat.ne_of_lt hij
        refine ⟨hpord, i, b, un, by rw [hjp]; exact hij, ?_, hiu, hord1, hid1, ?_⟩
        · rw [hLapp i hilt, hLne i hipne]
          exact higet
        · rw [show ({ unp with next := some eid } : Utt).id = unp.id from rfl]
          exact hnx1
      · rw [hLne j hjp] at hget'
        obtain ⟨hord2, i, b, un, hij, higet, hiu, hord1, hid1, hnx1⟩ :=
          hprev j b2 un2 y hget' hu hpv hyne
        have hilt : i < acc.length := getElem?_lt_len acc i b higet
        by_cases hip : i = p
        · rw [hip, hp] at higet
          cases higet
          rw [hpu] at hiu
          cases hiu
          obtain ⟨s, hs, hsne⟩ := (hUOk b2 (List.getElem?_mem hget') un2 hu).1
          rw [hpnext, hs] at hnx1
          cases hnx1
          exact absurd rfl hsne
        · refine ⟨hord2, i, b, un, hij, ?_, hiu, hord1, hid1, hnx1⟩
          rw [hLapp i hilt, hLne i hip]
          exact higet
    · rw [hLlen] at hj
      cases hu
      rw [show ({ un1 with prev := some pid } : Utt).prev = some pid from rfl] at hpv
      cases hpv
      refine ⟨hdt, p, ⟨bp.divIx, bp.divType, Node.u { unp with next := some eid }⟩,
        { unp with next := some eid }, by rw [hj]; exact hplt, ?_, rfl, hpord, ?_, ?_⟩
      · rw [hLapp p hplt]
        exact hLp
      · rw [show ({ unp with next := some eid } : Utt).id = unp.id from rfl, hpid]
      · rw [show ({ unp with next := some eid } : Utt).next = some eid from rfl,
          show ({ un1 with prev := some pid } : Utt).id = un1.id from rfl, heid]

/-- The scan-state invariant: transfer of the pending-utterance fact
across an append. -/
theorem prevu_append (acc : List BNode) (e : BNode) (p : Nat) (b : BNode)
    (un : Utt) (hg : acc[p]? = some b) (hu : b.node = Node.u un)
    (hord : ¬ b.divType = some strCommentSection)
    (hnx : un.next = some strDelete) :
    ∃ (b' : BNode) (un' : Utt), (acc ++ [e])[p]? = some b' ∧
      b'.node = Node.u un' ∧ ¬ b'.divType = some strCommentSection ∧
      un'.next = some strDelete := by
  refine ⟨b, un, ?_, hu, hord, hnx⟩
  rw [List.getElem?_append_left (by simpa using getElem?_lt_len acc p b hg)]
  exact hg

/-- One step of the scan preserves the invariant. -/
theorem stepNode_inv (Good : Str → Prop) (cfg : DCfg) (st st' : MSt)
    (b : BNode) (hcfg : cfgGood Good cfg) (hb : uIdOk b)
    (hinv : stInv Good st) (h : stepNode cfg st b = Except.ok st') :
    stInv Good st' := by
  obtain ⟨hUOk, hnext, hprev, hcs, hpv⟩ := hinv
  by_cases hdt : b.divType = some strCommentSection
  · rw [stepNode, if_pos hdt] at h
    cases hn : b.node with
    | u un =>
      simp only [hn] at h
      cases h
      obtain ⟨s, hs, hsne⟩ := hb un hn
      refine ⟨?_, ?_, ?_, Or.inl rfl, ?_⟩
      · apply uNodeOk_append Good _ _ hUOk
        intro un' hu'
        cases hu'
        exact ⟨⟨s, hs, hsne⟩, ⟨strUnknown, rfl, Or.inl rfl⟩, fun _ => ⟨rfl, rfl, rfl⟩⟩
      · apply nextOk_append _ _ hnext
        intro un' x hu' hx
        cases hu'
        cases hx
        rfl
      · apply prevOk_append _ _ hprev
        intro un' y hu' hy
        cases hu'
        cases hy
        rfl
      · intro q hq
        cases hq
    | note nn =>
      simp only [hn] at h
      cases h
      refine ⟨?_, ?_, ?_, Or.inl rfl, ?_⟩
      · apply uNodeOk_append Good _ _ hUOk
        intro un' hu'
        cases hu'
      · apply nextOk_append _ _ hnext
        intro un' x hu' _
        cases hu'
      · apply prevOk_append _ _ hprev
        intro un' y hu' _
        cases hu'
      · intro q hq
        cases hq
    | pb pp =>
      simp only [hn] at h
      cases h
      refine ⟨?_, ?_, ?_, Or.inl rfl, ?_⟩
      · apply uNodeOk_append Good _ _ hUOk
        intro un' hu'
        cases hu'
      · apply nextOk_append _ _ hnext
        intro un' x hu' _
        cases hu'
      · apply prevOk_append _ _ hprev
        intro un' y hu' _
        cases hu'
      · intro q hq
        cases hq
  · rw [stepNode, if_neg hdt] at h
    cases hn : b.node with
    | u un =>
      simp only [hn] at h
      obtain ⟨eid, heid, heidne⟩ := hb un hn
      have hwho1 : ∃ w, (some (st.cs.getD strUnknown) : Option Str) = some w ∧
          (w = strUnknown ∨ Good w) := by
        rcases hcs with hc | ⟨w, hw, hgw⟩
        · exact ⟨strUnknown, by rw [hc]; rfl, Or.inl rfl⟩
        · exact ⟨w, by rw [hw]; rfl, Or.inr hgw⟩
      cases hprevu : st.prevu with
      | none =>
        simp only [hprevu] at h
        cases h
        refine ⟨?_, ?_, ?_, hcs, ?_⟩
        · apply uNodeOk_append Good _ _ hUOk
          intro un' hu'
          cases hu'
          exact ⟨⟨eid, heid, heidne⟩, hwho1, fun hc => absurd hc hdt⟩
        · apply nextOk_append _ _ hnext
          intro un' x hu' hx
          cases hu'
          cases hx
          rfl
        · apply prevOk_append _ _ hprev
          intro un' y hu' hy
          cases hu'
          cases hy
          rfl
        · intro q hq
          cases hq
          refine ⟨_, _, List.getElem?_concat_length _ _, rfl, hdt, rfl⟩
      | some p =>
        simp only [hprevu] at h
        obtain ⟨bp, unp, hpget, hpu, hpord, hpnext⟩ := hpv p hprevu
        obtain ⟨pid, hpid, hpidne⟩ := (hUOk bp (List.getElem?_mem hpget) unp hpu).1
        have hida : idAt st.acc p = Except.ok pid := by
          unfold idAt
          simp only [hpget, hpu, hpid]
        simp only [hida, heid] at h
        cases h
        have hpe := patchNext_eq st.acc p eid bp unp hpget hpu
        have hchain := chain_append_inv Good st.acc p bp unp pid eid b.divIx
          b.divType
          ⟨some eid, some (st.cs.getD strUnknown), some strDelete, some strDelete,
            un.segs⟩
          hUOk hnext hprev hpget hpu hpord hpnext hpid rfl heidne hdt rfl hwho1
        refine ⟨?_, ?_, ?_, hcs, ?_⟩
        · rw [hpe]
          exact hchain.1
        · rw [hpe]
          exact hchain.2.1
        · rw [hpe]
          exact hchain.2.2
        · intro q hq
          cases hq
          rw [hpe]
          exact ⟨_, _, List.getElem?_concat_length _ _, rfl, hdt, rfl⟩
    | note nn =>
      simp only [hn] at h
      by_cases hsp : nn.type = some strSpeaker
      · rw [if_pos hsp] at h
        cases htxt : nn.text with
        | none =>
          simp only [htxt] at h
          cases h
        | some t =>
          simp only [htxt] at h
          cases hres : resolveIntro cfg t with
          | error e =>
            simp only [hres] at h
            cases h
          | ok cs' =>
            simp only [hres] at h
            cases h
            refine ⟨?_, ?_, ?_, ?_, ?_⟩
            · apply uNodeOk_append Good _ _ hUOk
              intro un' hu'
              cases hu'
            · apply nextOk_append _ _ hnext
              intro un' x hu' _
              cases hu'
            · apply prevOk_append _ _ hprev
              intro un' y hu' _
              cases hu'
            · cases cs' with
              | none => exact Or.inl rfl
              | some w =>
                exact Or.inr ⟨w, rfl, resolveIntro_good Good cfg t w hcfg hres⟩
            · intro q hq
              cases hq
      · rw [if_neg hsp] at h
        cases h
        refine ⟨?_, ?_, ?_, hcs, ?_⟩
        · apply uNodeOk_append Good _ _ hUOk
          intro un' hu'
          cases hu'
        · apply nextOk_append _ _ hnext
          intro un' x hu' _
          cases hu'
        · apply prevOk_append _ _ hprev
          intro un' y hu' _
          cases hu'
        · intro q hq
          obtain ⟨b1, un1, hg, hu1, ho1, hx1⟩ := hpv q hq
          exact prevu_append st.acc _ q b1 un1 hg hu1 ho1 hx1
    | pb pp =>
      simp only [hn] at h
      cases h
      refine ⟨?_, ?_, ?_, hcs, ?_⟩
      · apply uNodeOk_append Good _ _ hUOk
        intro un' hu'
        cases hu'
      · apply nextOk_append _ _ hnext
        intro un' x hu' _
        cases hu'
      · apply prevOk_append _ _ hprev
        intro un' y hu' _
        cases hu'
      · intro q hq
        obtain ⟨b1, un1, hg, hu1, ho1, hx1⟩ := hpv q hq
        exact prevu_append st.acc _ q b1 un1 hg hu1 ho1 hx1

/-- The whole scan preserves the invariant. -/
theorem runNodes_inv (Good : Str → Prop) (cfg : DCfg) (l : List BNode)
    (st fin : MSt) (hcfg : cfgGood Good cfg) (hl : ∀ b ∈ l, uIdOk b)
    (hinv : stInv Good st) (h : runNodes cfg l st = Except.ok fin) :
    stInv Good fin := by
  induction l generalizing st with
  | nil =>
    rw [runNodes] at h
    cases h
    exact hinv
  | cons b rest ih =>
    rw [runNodes] at h
    cases hs : stepNode cfg st b with
    | error e => rw [hs] at h; cases h
    | ok st1 =>
      rw [hs] at h
      exact ih st1 (fun x hx => hl x (List.mem_cons_of_mem b hx))
        (stepNode_inv Good cfg st st1 b hcfg (hl b (List.mem_cons_self b rest)) hinv hs) h

/-- Inversion of the sentinel-deletion map. -/
theorem stripDelete_some (x : Option Str) (v : Str) (h : stripDelete x = some v) :
    x = some v ∧ ¬ v = strDelete := by
  cases x with
  | none => cases h
  | some s =>
    by_cases hs : s = strDelete
    · simp [stripDelete, hs] at h
    · simp [stripDelete, hs] at h
      subst h
      exact ⟨rfl, hs⟩

/-- The sentinel-deletion map keeps live pointers. -/
theorem stripDelete_keep (v : Str) (h : ¬ v = strDelete) :
    stripDelete (some v) = some v := by
  simp [stripDelete, h]

/-- The sentinel-deletion pass on one utterance's attributes. -/
def stripUtt (un : Utt) : Utt :=
  ⟨un.id, un.who, stripDelete un.prev, stripDelete un.next, un.segs⟩

/-- `stripU` on an utterance node. -/
theorem stripU_u (b : BNode) (un : Utt) (h : b.node = Node.u un) :
    stripU b = ⟨b.divIx, b.divType, Node.u (stripUtt un)⟩ := by
  unfold stripU stripUtt
  simp only [h]

/-- `stripU` on a note node. -/
theorem stripU_note (b : BNode) (nn : NoteN) (h : b.node = Node.note nn) :
    stripU b = b := by
  unfold stripU
  simp only [h]

/-- `stripU` on a page break. -/
theorem stripU_pb (b : BNode) (pp : PB) (h : b.node = Node.pb pp) :
    stripU b = b := by
  unfold stripU
  simp only [h]

/-- Claim C3 (amended): in the output of speaker attribution the
`prev`/`next` chain links only utterance nodes of ordinary sections:
every live `next` pointer goes strictly forward (so following `next`
terminates at a node with no `next`), the `prev` chain is its exact
inverse, and comment-section utterances carry no chain pointers — but a
pointer **may** connect utterances of two different consecutive ordinary
sections, since the scan's `prev` state is not reset at division
boundaries (see the counterexample). -/
theorem detect_mps_chain_invariants (ctx : Ctx) (doc : Doc)
    (mp_db : List MPRow) (minister_db : List MinisterRow)
    (speaker_db : List SpeakerRow) (metadata : Metadata)
    (party_map : PartyMap) (protocol_id : Option Str)
    (unknown_variables : List Str) (out : List BNode)
    (unk : List (List (Option Str)))
    (hids : ∀ b ∈ flattenDoc doc, uIdOk b)
    (hok : detect_mps ctx doc mp_db minister_db speaker_db metadata party_map
      protocol_id unknown_variables = Except.ok (out, unk)) :
    (∀ b ∈ out, ∀ un, b.node = Node.u un →
      b.divType = some strCommentSection →
      un.prev = none ∧ un.next = none ∧ un.who = some strUnknown) ∧
    (∀ (i : Nat) (b : BNode) (un : Utt) (x : Str), out[i]? = some b →
      b.node = Node.u un → un.next = some x →
      ¬ b.divType = some strCommentSection ∧
      ∃ (j : Nat) (b2 : BNode) (un2 : Utt), i < j ∧ out[j]? = some b2 ∧
        b2.node = Node.u un2 ∧ ¬ b2.divType = some strCommentSection ∧
        un2.id = some x ∧ un2.prev = un.id) ∧
    (∀ (j : Nat) (b2 : BNode) (un2 : Utt) (y : Str), out[j]? = some b2 →
      b2.node = Node.u un2 → un2.prev = some y →
      ¬ b2.divType = some strCommentSection ∧
      ∃ (i : Nat) (b : BNode) (un : Utt), i < j ∧ out[i]? = some b ∧
        b.node = Node.u un ∧ ¬ b.divType = some strCommentSection ∧
        un.id = some y ∧ un.next = un2.id) := by
  unfold detect_mps at hok
  cases hrun : runNodes
      (detectCfg ctx doc mp_db minister_db speaker_db metadata party_map
        protocol_id unknown_variables)
      (flattenDoc doc) ⟨none, none, [], []⟩ with
  | error e => rw [hrun] at hok; cases hok
  | ok fin =>
    rw [hrun] at hok
    cases hok
    have hinit : stInv (fun _ => True) ⟨none, none, [], []⟩ := by
      refine ⟨?_, ?_, ?_, Or.inl rfl, ?_⟩
      · intro b hb
        cases hb
      · intro i b un x hg hu hn hx
        cases hg
      · intro j b2 un2 y hg hu hp hy
        cases hg
      · intro p hp
        cases hp
    have hcfgT : cfgGood (fun _ => True)
        (detectCfg ctx doc mp_db minister_db speaker_db metadata party_map
          protocol_id unknown_variables) :=
      ⟨fun _ _ _ _ _ => trivial, fun _ _ _ _ _ => trivial,
        fun _ _ _ _ _ _ => trivial⟩
    have hfin := runNodes_inv (fun _ => True)
      (detectCfg ctx doc mp_db minister_db speaker_db metadata party_map
        protocol_id unknown_variables)
      (flattenDoc doc) ⟨none, none, [], []⟩ fin hcfgT hids hinit hrun
    obtain ⟨hUOk, hnext, hprev, _, _⟩ := hfin
    refine ⟨?_, ?_, ?_⟩
    · intro b hb un hu hcm
      obtain ⟨b0, hb0, rfl⟩ := List.mem_map.mp hb
      cases hb0n : b0.node with
      | u un0 =>
        rw [stripU_u b0 un0 hb0n] at hu hcm
        cases hu
        obtain ⟨_, _, hcmm⟩ := hUOk b0 hb0 un0 hb0n
        obtain ⟨hpv, hnx, hwho⟩ := hcmm hcm
        refine ⟨?_, ?_, hwho⟩
        · rw [show (stripUtt un0).prev = stripDelete un0.prev from rfl, hpv]
          simp [stripDelete]
        · rw [show (stripUtt un0).next = stripDelete un0.next from rfl, hnx]
          simp [stripDelete]
      | note nn =>
        rw [stripU_note b0 nn hb0n, hb0n] at hu
        cases hu
      | pb pp =>
        rw [stripU_pb b0 pp hb0n, hb0n] at hu
        cases hu
    · intro i b un x hget hu hnx
      rw [List.getElem?_map stripU fin.acc i] at hget
      cases hg0 : fin.acc[i]? with
      | none => rw [hg0] at hget; cases hget
      | some b0 =>
        rw [hg0] at hget
        cases hget
        cases hb0n : b0.node with
        | u un0 =>
          rw [stripU_u b0 un0 hb0n] at hu ⊢
          cases hu
          rw [show (stripUtt un0).next = stripDelete un0.next from rfl] at hnx
          obtain ⟨hnx0, hxne⟩ := stripDelete_some un0.next x hnx
          obtain ⟨hord, j, b2, un2, hij, hjget, hju, hord2, hid2, hprev2⟩ :=
            hnext i b0 un0 x hg0 hb0n hnx0 hxne
          obtain ⟨s0, hs0, hs0ne⟩ := (hUOk b0 (List.getElem?_mem hg0) un0 hb0n).1
          refine ⟨hord, j, ⟨b2.divIx, b2.divType, Node.u (stripUtt un2)⟩,
            stripUtt un2, hij, ?_, rfl, hord2, hid2, ?_⟩
          · rw [List.getElem?_map stripU fin.acc j, hjget]
            rw [show Option.map stripU (some b2) = some (stripU b2) from rfl,
              stripU_u b2 un2 hju]
          · rw [show (stripUtt un2).prev = stripDelete un2.prev from rfl, hprev2,
              hs0, stripDelete_keep s0 hs0ne,
              show (stripUtt un0).id = un0.id from rfl, hs0]
        | note nn =>
          rw [stripU_note b0 nn hb0n, hb0n] at hu
          cases hu
        | pb pp =>
          rw [stripU_pb b0 pp hb0n, hb0n] at hu
          cases hu
    · intro j b2 un2 y hget hu hpv
      rw [List.getElem?_map stripU fin.acc j] at hget
      cases hg0 : fin.acc[j]? with
      | none => rw [hg0] at hget; cases hget
      | some b0 =>
        rw [hg0] at hget
        cases hget
        cases hb0n : b0.node with
        | u un0 =>
          rw [stripU_u b0 un0 hb0n] at hu ⊢
          cases hu
          rw [show (stripUtt un0).prev = stripDelete un0.prev from rfl] at hpv
          obtain ⟨hpv0, hyne⟩ := stripDelete_some un0.prev y hpv
          obtain ⟨hord2, i, b1, un1, hij, higet, hiu, hord1, hid1, hnx1⟩ :=
            hprev j b0 un0 y hg0 hb0n hpv0 hyne
          obtain ⟨s0, hs0, hs0ne⟩ := (hUOk b0 (List.getElem?_mem hg0) un0 hb0n).1
          refine ⟨hord2, i, ⟨b1.divIx, b1.divType, Node.u (stripUtt un1)⟩,
            stripUtt un1, hij, ?_, rfl, hord1, hid1, ?_⟩
          · rw [List.getElem?_map stripU fin.acc i, higet]
            rw [show Option.map stripU (some b1) = some (stripU b1) from rfl,
              stripU_u b1 un1 hiu]
          · rw [show (stripUtt un1).next = stripDelete un1.next from rfl, hnx1,
              hs0, stripDelete_keep s0 hs0ne,
              show (stripUtt un0).id = un0.id from rfl, hs0]
        | note nn =>
          rw [stripU_note b0 nn hb0n, hb0n] at hu
          cases hu
        | pb pp =>
          rw [stripU_pb b0 pp hb0n, hb0n] at hu
          cases hu

/-- The two-division witness document of the chain-invariant theorem. -/
def docW3 : Doc :=
  ⟨[], [⟨none, none, [uNode "a", uNode "b"]⟩,
    ⟨some (sl "commentSection"), none, [uNode "c"]⟩], none⟩

/-- The attributed output of `detect_mps` on `docW3`. -/
def outW3 : List BNode :=
  [⟨0, none, Node.u ⟨some (sl "a"), some strUnknown, none, some (sl "b"), []⟩⟩,
   ⟨0, none, Node.u ⟨some (sl "b"), some strUnknown, some (sl "a"), none, []⟩⟩,
   ⟨1, some (sl "commentSection"),
     Node.u ⟨some (sl "c"), some strUnknown, none, none, []⟩⟩]

/-- Witness for `detect_mps_chain_invariants` at a concrete input. -/
theorem detect_mps_chain_invariants_witness :
    (∀ b ∈ flattenDoc docW3, uIdOk b) ∧
    ((∀ b ∈ outW3, ∀ un, b.node = Node.u un →
      b.divType = some strCommentSection →
      un.prev = none ∧ un.next = none ∧ un.who = some strUnknown) ∧
    (∀ (i : Nat) (b : BNode) (un : Utt) (x : Str), outW3[i]? = some b →
      b.node = Node.u un → un.next = some x →
      ¬ b.divType = some strCommentSection ∧
      ∃ (j : Nat) (b2 : BNode) (un2 : Utt), i < j ∧ outW3[j]? = some b2 ∧
        b2.node = Node.u un2 ∧ ¬ b2.divType = some strCommentSection ∧
        un2.id = some x ∧ un2.prev = un.id) ∧
    (∀ (j : Nat) (b2 : BNode) (un2 : Utt) (y : Str), outW3[j]? = some b2 →
      b2.node = Node.u un2 → un2.prev = some y →
      ¬ b2.divType = some strCommentSection ∧
      ∃ (i : Nat) (b : BNode) (un : Utt), i < j ∧ outW3[i]? = some b ∧
        b.node = Node.u un ∧ ¬ b.divType = some strCommentSection ∧
        un.id = some y ∧ un.next = un2.id)) := by
  have hids : ∀ b ∈ flattenDoc docW3, uIdOk b := by
    intro b hb
    fin_cases hb <;> (intro un hu; cases hu; exact ⟨_, rfl, by decide⟩)
  exact ⟨hids, detect_mps_chain_invariants ctxNone docW3 [] [] []
    ⟨1900, none, none⟩ [] (some (sl "pw")) [] outW3 [] hids rfl⟩

/-- Claim C4: after speaker attribution completes, every utterance node —
in ordinary and comment sections alike — carries a `who` attribute whose
value is the string "unknown" or an identity produced by one of the
resolver strategies (`Good`); the attribute is never absent. -/
theorem detect_mps_speaker_total (Good : Str → Prop) (ctx : Ctx) (doc : Doc)
    (mp_db : List MPRow) (minister_db : List MinisterRow)
    (speaker_db : List SpeakerRow) (metadata : Metadata)
    (party_map : PartyMap) (protocol_id : Option Str)
    (unknown_variables : List Str) (out : List BNode)
    (unk : List (List (Option Str)))
    (hres : cfgGood Good (detectCfg ctx doc mp_db minister_db speaker_db
      metadata party_map protocol_id unknown_variables))
    (hids : ∀ b ∈ flattenDoc doc, uIdOk b)
    (hok : detect_mps ctx doc mp_db minister_db speaker_db metadata party_map
      protocol_id unknown_variables = Except.ok (out, unk)) :
    ∀ b ∈ out, ∀ un, b.node = Node.u un →
      ∃ w, un.who = some w ∧ (w = strUnknown ∨ Good w) := by
  unfold detect_mps at hok
  cases hrun : runNodes
      (detectCfg ctx doc mp_db minister_db speaker_db metadata party_map
        protocol_id unknown_variables)
      (flattenDoc doc) ⟨none, none, [], []⟩ with
  | error e => rw [hrun] at hok; cases hok
  | ok fin =>
    rw [hrun] at hok
    cases hok
    have hinit : stInv Good ⟨none, none, [], []⟩ := by
      refine ⟨?_, ?_, ?_, Or.inl rfl, ?_⟩
      · intro b hb
        cases hb
      · intro i b un x hg hu hn hx
        cases hg
      · intro j b2 un2 y hg hu hp hy
        cases hg
      · intro p hp
        cases hp
    have hfin := runNodes_inv Good
      (detectCfg ctx doc mp_db minister_db speaker_db metadata party_map
        protocol_id unknown_variables)
      (flattenDoc doc) ⟨none, none, [], []⟩ fin hres hids hinit hrun
    obtain ⟨hUOk, _, _, _, _⟩ := hfin
    intro b hb un hu
    obtain ⟨b0, hb0, rfl⟩ := List.mem_map.mp hb
    cases hb0n : b0.node with
    | u un0 =>
      rw [stripU_u b0 un0 hb0n] at hu
      cases hu
      obtain ⟨_, hwho, _⟩ := hUOk b0 hb0 un0 hb0n
      exact hwho
    | note nn =>
      rw [stripU_note b0 nn hb0n, hb0n] at hu
      cases hu
    | pb pp =>
      rw [stripU_pb b0 pp hb0n, hb0n] at hu
      cases hu

/-- The witness document and context of the speaker-totality theorem. -/
def docW4 : Doc := ⟨[], [⟨none, none, [spNote "n1" "X", uNode "a"]⟩], none⟩

/-- A context resolving every announcement to the identity `Q1`. -/
def ctxW4 : Ctx :=
  ⟨fun _ => ⟨some (sl "X"), none, none, none⟩, fun s => s,
   fun _ _ _ => Except.ok none,
   fun _ _ _ => Except.ok none,
   fun _ _ _ _ => Except.ok (some (sl "Q1"))⟩

/-- Witness for `detect_mps_speaker_total` at a concrete input, with
`Good` instantiated to "is the identity Q1". -/
theorem detect_mps_speaker_total_witness :
    ∃ w, (⟨some (sl "a"), some (sl "Q1"), none, none, []⟩ : Utt).who = some w ∧
      (w = strUnknown ∨ w = sl "Q1") := by
  have hres : cfgGood (fun s => s = sl "Q1")
      (detectCfg ctxW4 docW4 [] [] [] ⟨1900, none, none⟩ [] (some (sl "pw")) []) := by
    refine ⟨?_, ?_, ?_⟩
    · intro t db d w h
      cases h
    · intro t db md w h
      cases h
    · intro d db pm f w h
      cases h
      rfl
  have hids : ∀ b ∈ flattenDoc docW4, uIdOk b := by
    intro b hb
    fin_cases hb
    · intro un hu
      cases hu
    · intro un hu
      cases hu
      exact ⟨_, rfl, by decide⟩
  exact detect_mps_speaker_total (fun s => s = sl "Q1") ctxW4 docW4 [] [] []
    ⟨1900, none, none⟩ [] (some (sl "pw")) []
    [⟨0, none, Node.note ⟨some (sl "n1"), some strSpeaker, some (sl "X")⟩⟩,
     ⟨0, none, Node.u ⟨some (sl "a"), some (sl "Q1"), none, none, []⟩⟩]
    [] hres hids rfl
    ⟨0, none, Node.u ⟨some (sl "a"), some (sl "Q1"), none, none, []⟩⟩
    (List.Mem.tail _ (List.Mem.head _))
    ⟨some (sl "a"), some (sl "Q1"), none, none, []⟩ rfl
